import Mathlib

/-!
Verification of the cycle-by-cycle oscillation analysis and burst detection
pipeline described by this repository's specification.  The repository's own
files are tutorial notebooks that call into the analysis library; the
algorithmic core exercised by those notebooks (extrema localization,
flank-midpoint localization, per-cycle features, the consistency burst
classifier, the dual-threshold burst detector, and burst statistics) is
modelled here from the specification, and the specified properties are
proved against that model.

Signals are modelled as lists of rational sample values; sample indices are
natural numbers.  All definitions are executable.
-/

namespace Bycycle

/-- A discrete signal: an ordered sequence of rational sample values. -/
abbrev Signal := List ℚ

/-- Value of a signal at sample index `i` (0 outside the recorded range). -/
def val (s : Signal) (i : Nat) : ℚ := s.getD i 0

/-! ## DualThresholdBurstDetector

Modelled from the spec: `detect_bursts_dual_threshold` band-pass filters the
signal and computes an instantaneous magnitude at every sample; both the
filter and the envelope extraction are external collaborators (FilterService
and a Hilbert-transform primitive), so the model takes the per-sample
magnitude series as its input.  The model covers everything the spec assigns
to the component itself: the optional squaring for `magnitude_type = power`,
normalization by the whole-series mean or median, the rejection of an
inverted threshold configuration, and the forward hysteresis scan in which a
burst is entered at the first sample whose relative magnitude exceeds the
high threshold and exits at the first subsequent sample whose relative
magnitude falls below the low threshold, every sample between entry and exit
inclusive being marked `true`. -/

/-- Choice of average used to normalize the magnitude series. -/
inductive AvgType
  | mean
  | median

/-- Choice of thresholded magnitude metric: the amplitude envelope itself or
its square (power). -/
inductive MagType
  | amplitude
  | power

/-- Insert a rational into a sorted list, keeping it sorted. -/
def insertSorted (x : ℚ) : List ℚ → List ℚ
  | [] => [x]
  | y :: rest => if x ≤ y then x :: y :: rest else y :: insertSorted x rest

/-- Sort a list of rationals (insertion sort). -/
def sortQ : List ℚ → List ℚ
  | [] => []
  | x :: rest => insertSorted x (sortQ rest)

/-- Median of a list of rationals: middle element of the sorted list, or the
average of the two middle elements when the length is even. -/
def medianQ (l : List ℚ) : ℚ :=
  let s := sortQ l
  if l.length % 2 = 1 then s.getD (l.length / 2) 0
  else (s.getD (l.length / 2 - 1) 0 + s.getD (l.length / 2) 0) / 2

/-- Whole-series average of a magnitude series, per the chosen average type. -/
def averageQ : AvgType → List ℚ → ℚ
  | AvgType.mean, l => l.sum / l.length
  | AvgType.median, l => medianQ l

/-- Magnitude series actually thresholded: the envelope for `amplitude`, its
square for `power`. -/
def magSeries (env : List ℚ) : MagType → List ℚ
  | MagType.amplitude => env
  | MagType.power => env.map (fun x => x * x)

/-- Relative (unit-free) magnitude: each sample of the magnitude series
divided by the whole-series average magnitude. -/
def relativeMagnitude (env : List ℚ) (avgType : AvgType) (magType : MagType) :
    List ℚ :=
  let mag := magSeries env magType
  mag.map (fun x => x / averageQ avgType mag)

/-- Forward hysteresis scan over the relative magnitude series.  The boolean
state records whether the scan is currently inside a burst: a burst is
entered when the magnitude exceeds `hi`, and the inside state survives a
sample exactly when that sample's magnitude is at least `lo`, so the first
sample falling below `lo` is still marked `true` (the exit sample, inclusive)
and the state is dropped after it. -/
def dualScan (lo hi : ℚ) : List ℚ → Bool → List Bool
  | [], _ => []
  | x :: rest, inB =>
    (inB || decide (hi < x)) ::
      dualScan lo hi rest ((inB || decide (hi < x)) && decide (lo ≤ x))

/-- Modelled from the spec: `detect_bursts_dual_threshold`.  The sampling
rate and frequency band parameters only feed the external filtering
collaborator, so they are carried but unused; `env` is the per-sample
magnitude series produced by that collaborator.  A configuration whose low
threshold is above its high threshold is rejected (`none`) before any
computation. -/
def detect_bursts_dual_threshold (env : List ℚ) (_fs : ℚ)
    (dualThresh : ℚ × ℚ) (_f_range : ℚ × ℚ) (avgType : AvgType)
    (magType : MagType) : Option (List Bool) :=
  if dualThresh.2 < dualThresh.1 then none
  else
    some (dualScan dualThresh.1 dualThresh.2
      (relativeMagnitude env avgType magType) false)

theorem dualScan_length (lo hi : ℚ) :
    ∀ (m : List ℚ) (b : Bool), (dualScan lo hi m b).length = m.length := by
  intro m
  induction m with
  | nil => intro b; rfl
  | cons x rest ih => intro b; simp [dualScan, ih]

theorem relativeMagnitude_length (env : List ℚ) (avgType : AvgType)
    (magType : MagType) :
    (relativeMagnitude env avgType magType).length = env.length := by
  cases magType <;> simp [relativeMagnitude, magSeries]

/-- Monotonicity of the hysteresis scan: pointwise, lowering either threshold
(and strengthening the initial state) can only add burst samples. -/
theorem dualScan_mono (lo₁ lo₂ hi₁ hi₂ : ℚ) (hlo : lo₁ ≤ lo₂)
    (hhi : hi₁ ≤ hi₂) :
    ∀ (m : List ℚ) (b₁ b₂ : Bool), (b₂ = true → b₁ = true) → ∀ i : Nat,
      (dualScan lo₂ hi₂ m b₂).getD i false = true →
      (dualScan lo₁ hi₁ m b₁).getD i false = true := by
  intro m
  induction m with
  | nil => intro b₁ b₂ _ i h; simp [dualScan] at h
  | cons x rest ih =>
    intro b₁ b₂ hb i h
    cases i with
    | zero =>
      simp only [dualScan, List.getD_cons_zero, Bool.or_eq_true,
        decide_eq_true_eq] at h ⊢
      rcases h with h | h
      · exact Or.inl (hb h)
      · exact Or.inr (lt_of_le_of_lt hhi h)
    | succ i =>
      simp only [dualScan, List.getD_cons_succ] at h ⊢
      refine ih _ _ ?_ i h
      intro h2
      simp only [Bool.and_eq_true, Bool.or_eq_true, decide_eq_true_eq] at h2 ⊢
      obtain ⟨h2a, h2b⟩ := h2
      refine ⟨?_, le_trans hlo h2b⟩
      rcases h2a with h2a | h2a
      · exact Or.inl (hb h2a)
      · exact Or.inr (lt_of_le_of_lt hhi h2a)

/-- Closed-form characterization of the hysteresis scan: a sample is marked
as bursting exactly when some earlier-or-equal sample exceeded the high
threshold and no strictly intermediate sample fell below the low threshold
(or the scan started inside a burst that never yet exited). -/
theorem dualScan_spec (lo hi : ℚ) (hlh : lo ≤ hi) :
    ∀ (m : List ℚ) (b : Bool) (i : Nat), i < m.length →
      ((dualScan lo hi m b).getD i false = true ↔
        (b = true ∧ ∀ j, j < i → lo ≤ m.getD j 0) ∨
        (∃ e, e ≤ i ∧ hi < m.getD e 0 ∧
          ∀ j, e < j → j < i → lo ≤ m.getD j 0)) := by
  intro m
  induction m with
  | nil =>
    intro b i hilen
    simp at hilen
  | cons x rest ih =>
    intro b i hilen
    cases i with
    | zero =>
      simp only [dualScan, List.getD_cons_zero, Bool.or_eq_true,
        decide_eq_true_eq]
      constructor
      · rintro (hb | hx)
        · exact Or.inl ⟨hb, fun j hj => absurd hj (Nat.not_lt_zero j)⟩
        · exact Or.inr ⟨0, le_refl 0, hx,
            fun j h1 h2 => absurd h2 (Nat.not_lt_zero j)⟩
      · rintro (⟨hb, _⟩ | ⟨e, he, hx, _⟩)
        · exact Or.inl hb
        · right
          rw [show e = 0 from Nat.le_zero.mp he, List.getD_cons_zero] at hx
          exact hx
    | succ i =>
      simp only [dualScan, List.getD_cons_succ]
      have hlen : i < rest.length := by
        simpa using Nat.lt_of_succ_lt_succ hilen
      rw [ih ((b || decide (hi < x)) && decide (lo ≤ x)) i hlen]
      constructor
      · rintro (⟨hb, hall⟩ | ⟨e, he, hx, hj⟩)
        · simp only [Bool.and_eq_true, Bool.or_eq_true,
            decide_eq_true_eq] at hb
          obtain ⟨hb1, hb2⟩ := hb
          rcases hb1 with hb1 | hb1
          · refine Or.inl ⟨hb1, fun j hj => ?_⟩
            cases j with
            | zero => simpa using hb2
            | succ j => simpa using hall j (Nat.lt_of_succ_lt_succ hj)
          · refine Or.inr ⟨0, Nat.zero_le _, by simpa using hb1,
              fun j h1 h2 => ?_⟩
            cases j with
            | zero => exact absurd h1 (lt_irrefl 0)
            | succ j => simpa using hall j (Nat.lt_of_succ_lt_succ h2)
        · refine Or.inr ⟨e + 1, Nat.succ_le_succ he, by simpa using hx,
            fun j h1 h2 => ?_⟩
          cases j with
          | zero => exact absurd h1 (Nat.not_lt_zero _)
          | succ j =>
            have hjj := hj j (Nat.lt_of_succ_lt_succ h1)
              (Nat.lt_of_succ_lt_succ h2)
            simpa using hjj
      · rintro (⟨hb, hall⟩ | ⟨e, he, hx, hj⟩)
        · refine Or.inl ⟨?_, fun j hj => ?_⟩
          · simp only [Bool.and_eq_true, Bool.or_eq_true, decide_eq_true_eq]
            exact ⟨Or.inl hb, by simpa using hall 0 (Nat.succ_pos i)⟩
          · simpa using hall (j + 1) (Nat.succ_lt_succ hj)
        · cases e with
          | zero =>
            refine Or.inl ⟨?_, fun j hjlt => ?_⟩
            · simp only [Bool.and_eq_true, Bool.or_eq_true, decide_eq_true_eq]
              have hx0 : hi < x := by simpa using hx
              exact ⟨Or.inr hx0, le_trans hlh (le_of_lt hx0)⟩
            · simpa using hj (j + 1) (Nat.succ_pos j) (Nat.succ_lt_succ hjlt)
          | succ e =>
            refine Or.inr ⟨e, Nat.le_of_succ_le_succ he, by simpa using hx,
              fun j h1 h2 => ?_⟩
            simpa using hj (j + 1) (Nat.succ_lt_succ h1) (Nat.succ_lt_succ h2)

/-! ## BurstStatsComputer -/

/-- Lengths of the maximal `true` runs of a boolean mask; the accumulator is
the length of the `true` run currently open during the single forward scan. -/
def burstRunsAux : List Bool → Nat → List Nat
  | [], 0 => []
  | [], n + 1 => [n + 1]
  | false :: rest, 0 => burstRunsAux rest 0
  | false :: rest, n + 1 => (n + 1) :: burstRunsAux rest 0
  | true :: rest, n => burstRunsAux rest (n + 1)

/-- Lengths of the maximal `true` runs of a boolean mask, in order. -/
def burstRuns (mask : List Bool) : List Nat := burstRunsAux mask 0

/-- Summary statistics over detected burst runs.  Duration statistics are
`Option`-valued so that the degenerate no-burst case is explicitly
representable rather than silently propagating an undefined number. -/
structure BurstStats where
  n_bursts : Nat
  duration_min : Option ℚ
  duration_max : Option ℚ
  duration_mean : Option ℚ
  percent_burst : ℚ

/-- Modelled from the spec: `compute_burst_stats` scans the mask once for
maximal `true` runs, converts each run length to a duration in seconds via
the sampling rate, and reports the run count, extremal and mean durations,
and the fraction of samples marked as bursting.  With no `true` samples the
duration statistics are `none` (explicitly "no bursts detected"). -/
def compute_burst_stats (mask : List Bool) (fs : ℚ) : BurstStats :=
  let runs := burstRuns mask
  let durs := runs.map (fun n => (n : ℚ) / fs)
  { n_bursts := runs.length
    duration_min := durs.min?
    duration_max := durs.max?
    duration_mean :=
      if runs.isEmpty then none else some (durs.sum / durs.length)
    percent_burst := (mask.countP (fun b => b) : ℚ) / mask.length }

/-- Number of rising edges of a boolean mask (samples that are `true` with a
`false`, or absent, predecessor); `prev` is the value of the preceding
sample.  This is the declarative count of maximal `true` runs. -/
def risingEdges : List Bool → Bool → Nat
  | [], _ => 0
  | b :: rest, prev => (if b && !prev then 1 else 0) + risingEdges rest b

theorem burstRunsAux_length :
    ∀ (l : List Bool) (n : Nat),
      (burstRunsAux l n).length =
        (if 0 < n then 1 else 0) + risingEdges l (decide (0 < n)) := by
  intro l
  induction l with
  | nil =>
    intro n
    cases n with
    | zero => simp [burstRunsAux, risingEdges]
    | succ n => simp [burstRunsAux, risingEdges]
  | cons x rest ih =>
    intro n
    cases x with
    | false =>
      cases n with
      | zero => simpa [burstRunsAux, risingEdges] using ih 0
      | succ n =>
        have h0 := ih 0
        simp only [burstRunsAux, risingEdges, List.length_cons,
          decide_eq_true_eq] at h0 ⊢
        simp at h0 ⊢
        omega
    | true =>
      cases n with
      | zero => simpa [burstRunsAux, risingEdges] using ih 1
      | succ n => simpa [burstRunsAux, risingEdges] using ih (n + 2)

/-- The number of maximal `true` runs found by the scan equals the number of
rising edges of the mask. -/
theorem burstRuns_length (mask : List Bool) :
    (burstRuns mask).length = risingEdges mask false := by
  simpa [burstRuns] using burstRunsAux_length mask 0

theorem risingEdges_of_all_false :
    ∀ (l : List Bool), (∀ b ∈ l, b = false) → ∀ prev, risingEdges l prev = 0 := by
  intro l
  induction l with
  | nil => intro _ prev; simp [risingEdges]
  | cons x rest ih =>
    intro h prev
    have hx : x = false := h x (List.mem_cons_self x rest)
    subst hx
    simp only [risingEdges, Bool.false_and, if_neg (by simp : ¬False)]
    simpa using ih (fun b hb => h b (List.mem_cons_of_mem _ hb)) false

theorem burstRuns_of_all_false (mask : List Bool)
    (h : ∀ b ∈ mask, b = false) : burstRuns mask = [] := by
  have := burstRuns_length mask
  rw [risingEdges_of_all_false mask h false] at this
  exact List.length_eq_zero.mp this

/-! ## ConsistencyBurstClassifier: run-length confirmation -/

/-- Length of the initial run of `true` values of a boolean list. -/
def leadTrue : List Bool → Nat
  | true :: rest => leadTrue rest + 1
  | _ => 0

/-- Modelled from the spec: the minimum-cycle confirmation pass of the
ConsistencyBurstClassifier.  A run-length-encoding style pass over the
per-cycle burst-candidate booleans: each maximal run of candidates of length
at least `minN` is confirmed, every shorter run is demoted to non-burst, and
non-candidate cycles stay non-burst. -/
def confirmBursts (minN : Nat) : List Bool → List Bool
  | [] => []
  | false :: rest => false :: confirmBursts minN rest
  | true :: rest =>
    List.replicate (leadTrue rest + 1) (decide (minN ≤ leadTrue rest + 1)) ++
      confirmBursts minN (rest.drop (leadTrue rest))
termination_by l => l.length
decreasing_by
  · simp
  · simp only [List.length_cons, List.length_drop]
    omega

theorem leadTrue_le_length : ∀ l : List Bool, leadTrue l ≤ l.length := by
  intro l
  induction l with
  | nil => simp [leadTrue]
  | cons x rest ih =>
    cases x with
    | false => simp [leadTrue]
    | true => simpa [leadTrue] using ih

theorem confirmBursts_length (minN : Nat) (l : List Bool) :
    (confirmBursts minN l).length = l.length := by
  induction l using confirmBursts.induct minN with
  | case1 => simp [confirmBursts]
  | case2 rest ih => simp [confirmBursts, ih]
  | case3 rest ih =>
    simp only [confirmBursts, List.length_append, List.length_replicate,
      List.length_cons, List.length_drop] at ih ⊢
    have hle := leadTrue_le_length rest
    omega

theorem leadTrue_getD : ∀ l : List Bool, l.getD (leadTrue l) false = false := by
  intro l
  induction l with
  | nil => simp [leadTrue]
  | cons x rest ih =>
    cases x with
    | false => simp [leadTrue]
    | true => simpa [leadTrue] using ih

theorem getD_lt_leadTrue : ∀ (l : List Bool) (j : Nat), j < leadTrue l →
    l.getD j false = true := by
  intro l
  induction l with
  | nil => intro j hj; simp [leadTrue] at hj
  | cons x rest ih =>
    intro j hj
    cases x with
    | false => simp [leadTrue] at hj
    | true =>
      cases j with
      | zero => simp
      | succ j =>
        simp only [leadTrue] at hj
        simpa using ih j (Nat.lt_of_succ_lt_succ hj)

theorem getD_replicate_bool (c : Bool) (k i : Nat) (h : i < k) :
    (List.replicate k c).getD i false = c := by
  rw [List.getD_eq_getElem _ _ (by simpa using h), List.getElem_replicate]

/-- A cycle is confirmed as a burst exactly when it is a candidate sitting
inside an all-candidate window of at least `minN` cycles, i.e. exactly when
its maximal candidate run has length at least `minN`. -/
theorem confirmBursts_spec (minN : Nat) (l : List Bool) : ∀ i : Nat,
    ((confirmBursts minN l).getD i false = true ↔
      ∃ a b, a ≤ i ∧ i ≤ b ∧ minN ≤ b + 1 - a ∧
        ∀ j, a ≤ j → j ≤ b → l.getD j false = true) := by
  induction l using confirmBursts.induct minN with
  | case1 =>
    intro i
    simp only [confirmBursts]
    constructor
    · intro h
      simp at h
    · rintro ⟨a, b, ha, hb, _, hall⟩
      have h0 := hall i ha hb
      simp at h0
  | case2 rest ih =>
    intro i
    cases i with
    | zero =>
      simp only [confirmBursts, List.getD_cons_zero]
      constructor
      · intro h
        simp at h
      · rintro ⟨a, b, ha, hb, _, hall⟩
        have h0 := hall 0 ha hb
        simp at h0
    | succ i =>
      simp only [confirmBursts, List.getD_cons_succ]
      rw [ih i]
      constructor
      · rintro ⟨a, b, ha, hb, hmin, hall⟩
        refine ⟨a + 1, b + 1, Nat.succ_le_succ ha, Nat.succ_le_succ hb,
          by omega, fun j h1 h2 => ?_⟩
        cases j with
        | zero => exact absurd h1 (by omega)
        | succ j =>
          rw [List.getD_cons_succ]
          exact hall j (Nat.le_of_succ_le_succ h1) (Nat.le_of_succ_le_succ h2)
      · rintro ⟨a, b, ha, hb, hmin, hall⟩
        have hb1 : 1 ≤ b := by omega
        have ha1 : 1 ≤ a := by
          by_contra hcon
          have h0 := hall 0 (by omega) (by omega)
          simp at h0
        refine ⟨a - 1, b - 1, by omega, by omega, by omega, fun j h1 h2 => ?_⟩
        have := hall (j + 1) (by omega) (by omega)
        simpa using this
  | case3 rest ih =>
    intro i
    have hk : leadTrue (true :: rest) = leadTrue rest + 1 := rfl
    by_cases hik : i < leadTrue rest + 1
    · rw [show confirmBursts minN (true :: rest) =
        List.replicate (leadTrue rest + 1) (decide (minN ≤ leadTrue rest + 1)) ++
          confirmBursts minN (rest.drop (leadTrue rest)) from by
          simp [confirmBursts]]
      rw [List.getD_append _ _ _ _ (by simpa using hik),
        getD_replicate_bool _ _ _ hik]
      constructor
      · intro h
        have hmk : minN ≤ leadTrue rest + 1 := by simpa using h
        refine ⟨0, leadTrue rest, Nat.zero_le i, by omega, by omega,
          fun j h1 h2 => ?_⟩
        exact getD_lt_leadTrue (true :: rest) j (by omega)
      · rintro ⟨a, b, ha, hb, hmin, hall⟩
        have hblt : b < leadTrue rest + 1 := by
          by_contra hcon
          have hmem := hall (leadTrue rest + 1) (by omega) (by omega)
          have hfalse := leadTrue_getD (true :: rest)
          rw [hk] at hfalse
          rw [hfalse] at hmem
          exact Bool.false_ne_true hmem
        simp only [decide_eq_true_eq]
        omega
    · rw [show confirmBursts minN (true :: rest) =
        List.replicate (leadTrue rest + 1) (decide (minN ≤ leadTrue rest + 1)) ++
          confirmBursts minN (rest.drop (leadTrue rest)) from by
          simp [confirmBursts]]
      rw [List.getD_append_right _ _ _ _ (by simpa using Nat.le_of_not_lt hik),
        List.length_replicate]
      rw [ih (i - (leadTrue rest + 1))]
      have hshift : ∀ j : Nat, (rest.drop (leadTrue rest)).getD j false =
          (true :: rest).getD (j + (leadTrue rest + 1)) false := by
        intro j
        rw [List.getD_eq_getElem?_getD, List.getElem?_drop,
          List.getD_eq_getElem?_getD]
        have : j + (leadTrue rest + 1) = (leadTrue rest + j) + 1 := by omega
        rw [this, List.getElem?_cons_succ]
      have hki : leadTrue rest + 1 ≤ i := Nat.le_of_not_lt hik
      constructor
      · rintro ⟨a, b, ha, hb, hmin, hall⟩
        refine ⟨a + (leadTrue rest + 1), b + (leadTrue rest + 1), by omega,
          by omega, by omega, fun j h1 h2 => ?_⟩
        have hj : j - (leadTrue rest + 1) + (leadTrue rest + 1) = j := by omega
        rw [← hj, ← hshift]
        exact hall _ (by omega) (by omega)
      · rintro ⟨a, b, ha, hb, hmin, hall⟩
        have hak : leadTrue rest + 1 ≤ a := by
          by_contra hcon
          have hmem := hall (leadTrue rest + 1) (by omega) (by omega)
          have hfalse := leadTrue_getD (true :: rest)
          rw [hk] at hfalse
          rw [hfalse] at hmem
          exact Bool.false_ne_true hmem
        refine ⟨a - (leadTrue rest + 1), b - (leadTrue rest + 1), by omega,
          by omega, by omega, fun j h1 h2 => ?_⟩
        rw [hshift j]
        exact hall _ (by omega) (by omega)

/-! ## ConsistencyBurstClassifier: per-cycle metrics and decision rule -/

/-- Ratio of the smaller to the larger of two flank amplitudes (0 when both
are 0, by the rational convention of division by zero). -/
def ampRatio (x y : ℚ) : ℚ := min x y / max x y

/-- Modelled from the spec: the amplitude-consistency score of cycle `i`
given the per-cycle rise and decay amplitudes.  For an interior cycle the
score is the minimum, over the three adjacent rise/decay amplitude pairs
involving this cycle's flanks (this cycle's rise with this cycle's decay,
the previous cycle's decay with this cycle's rise, and this cycle's decay
with the next cycle's rise), of the min/max ratio of the pair.  A boundary
cycle lacking a full neighbor set gets `none` (undefined, automatically
failing). -/
def amp_consistency (rises decays : List ℚ) (i : Nat) : Option ℚ :=
  if 1 ≤ i ∧ i + 1 < rises.length ∧ i + 1 < decays.length then
    some (min (ampRatio (rises.getD i 0) (decays.getD i 0))
      (min (ampRatio (decays.getD (i - 1) 0) (rises.getD i 0))
        (ampRatio (rises.getD (i + 1) 0) (decays.getD i 0))))
  else none

/-- Modelled from the spec: the period-consistency score of cycle `i`: the
minimum of the two adjacent period min/max ratios involving this cycle;
`none` for boundary cycles. -/
def period_consistency (periods : List ℚ) (i : Nat) : Option ℚ :=
  if 1 ≤ i ∧ i + 1 < periods.length then
    some (min (ampRatio (periods.getD (i - 1) 0) (periods.getD i 0))
      (ampRatio (periods.getD i 0) (periods.getD (i + 1) 0)))
  else none

/-- A score meets a threshold only when it is defined and at least the
threshold; an undefined score always fails. -/
def passes (score : Option ℚ) (thr : ℚ) : Bool :=
  match score with
  | none => false
  | some v => decide (thr ≤ v)

/-- Burst-detection threshold configuration of the consistency classifier. -/
structure ThresholdKwargs where
  amp_fraction_threshold : ℚ
  amp_consistency_threshold : ℚ
  period_consistency_threshold : ℚ
  monotonicity_threshold : ℚ
  min_n_cycles : Nat

/-- Modelled from the spec: the ConsistencyBurstClassifier decision rule.  A
cycle is a burst candidate exactly when all four metrics meet or exceed
their thresholds (amplitude and period consistency computed here from the
per-cycle flank amplitudes and periods; monotonicity and band amplitude
fraction supplied per cycle by their own computations); candidates are then
filtered by the minimum-cycle run-length confirmation. -/
def detect_bursts_cycles (rises decays periods : List ℚ)
    (mono ampFrac : List (Option ℚ)) (cfg : ThresholdKwargs) : List Bool :=
  confirmBursts cfg.min_n_cycles ((List.range rises.length).map (fun i =>
    passes (amp_consistency rises decays i) cfg.amp_consistency_threshold &&
    passes (period_consistency periods i) cfg.period_consistency_threshold &&
    passes (mono.getD i none) cfg.monotonicity_threshold &&
    passes (ampFrac.getD i none) cfg.amp_fraction_threshold))

theorem getD_map_range {α : Type} (f : Nat → α) (n i : Nat) (d : α)
    (h : i < n) : ((List.range n).map f).getD i d = f i := by
  rw [List.getD_eq_getElem _ _ (by simpa using h)]
  simp

theorem getD_nonneg_of_forall {l : List ℚ} (h : ∀ x ∈ l, 0 ≤ x) (i : Nat) :
    0 ≤ l.getD i 0 := by
  by_cases hi : i < l.length
  · rw [List.getD_eq_getElem _ _ hi]
    exact h _ (List.getElem_mem hi)
  · rw [List.getD_eq_getElem?_getD, List.getElem?_eq_none (by omega)]
    simp

theorem ampRatio_bounds {x y : ℚ} (hx : 0 ≤ x) (hy : 0 ≤ y) :
    0 ≤ ampRatio x y ∧ ampRatio x y ≤ 1 := by
  unfold ampRatio
  rcases eq_or_lt_of_le (le_max_of_le_left hx : (0 : ℚ) ≤ max x y) with hmax | hmax
  · rw [← hmax]
    simp
  · constructor
    · exact div_nonneg (le_min hx hy) (le_of_lt hmax)
    · rw [div_le_one hmax]
      exact min_le_max

/-! ## CycleFeatureComputer -/

/-- Features of a single cycle computed from its cyclepoint indices
(trough, rise midpoint, peak, decay midpoint, next trough). -/
structure CycleFeatures where
  period : ℚ
  volt_rise : ℚ
  volt_decay : ℚ
  volt_amp : ℚ
  time_rdsym : ℚ
  time_ptsym : ℚ
  quality_flag : Bool

/-- Modelled from the spec: per-cycle feature computation.  The period is
the sample distance between consecutive troughs; the rise and decay
amplitudes are the voltage excursions from the flanking troughs up to the
peak, averaged into `volt_amp`; `time_rdsym` is the fraction of the period
spent rising and `time_ptsym` the fraction spent above the flank midpoints.
A negative amplitude or an out-of-range symmetry ratio is surfaced through
`quality_flag` (the computed values are kept as-is, never clamped). -/
def compute_cycle_features (s : Signal) (t r p d t2 : Nat) : CycleFeatures :=
  let period : ℚ := (t2 : ℚ) - (t : ℚ)
  let rise := val s p - val s t
  let decay := val s p - val s t2
  let rdsym := ((p : ℚ) - (t : ℚ)) / period
  let ptsym := ((d : ℚ) - (r : ℚ)) / period
  { period := period
    volt_rise := rise
    volt_decay := decay
    volt_amp := (rise + decay) / 2
    time_rdsym := rdsym
    time_ptsym := ptsym
    quality_flag :=
      decide (rise < 0 ∨ decay < 0 ∨ rdsym < 0 ∨ 1 < rdsym ∨ ptsym < 0 ∨ 1 < ptsym) }

/-! ## ExtremaLocalizer and ZeroCrossingFinder

Modelled from the spec: `find_extrema` band-pass filters the signal to the
oscillation band (the FilterService collaborator, treated as an external
preprocessing step here, so the model receives the filtered signal), finds
rising and falling zero-crossings by sample-to-sample sign change, and takes
the absolute maximum between each pair of consecutive rising crossings as a
peak and the absolute minimum between consecutive falling crossings as a
trough (first occurrence on ties, deterministically). -/

/-- Direction of a flank zero-crossing. -/
inductive FlankDir
  | rise
  | decay

/-- A rising zero-crossing at sample `i`: the signal is negative at `i` and
nonnegative at `i + 1` (within the recorded range). -/
def isRiseCross (s : Signal) (i : Nat) : Bool :=
  decide (i + 1 < s.length) && decide (val s i < 0) && decide (0 ≤ val s (i + 1))

/-- A falling zero-crossing at sample `i`: the signal is nonnegative at `i`
and negative at `i + 1` (within the recorded range). -/
def isDecayCross (s : Signal) (i : Nat) : Bool :=
  decide (i + 1 < s.length) && decide (0 ≤ val s i) && decide (val s (i + 1) < 0)

/-- Modelled from the spec: `find_flank_zerox` lists all samples where the
signal crosses zero in the given direction, in increasing order. -/
def find_flank_zerox (s : Signal) : FlankDir → List Nat
  | FlankDir.rise => (List.range s.length).filter (isRiseCross s)
  | FlankDir.decay => (List.range s.length).filter (isDecayCross s)

/-- Fold selecting the index with the largest signal value among `best` and
the candidate indices, keeping the earliest index on ties. -/
def argmaxAux (s : Signal) : List Nat → Nat → Nat
  | [], best => best
  | i :: rest, best => argmaxAux s rest (if val s best < val s i then i else best)

/-- Index of the absolute maximum of the signal over sample window `a..b`
(first occurrence). -/
def argmaxIn (s : Signal) (a b : Nat) : Nat :=
  argmaxAux s (List.range' (a + 1) (b - a)) a

/-- Fold selecting the index with the smallest signal value among `best` and
the candidate indices, keeping the earliest index on ties. -/
def argminAux (s : Signal) : List Nat → Nat → Nat
  | [], best => best
  | i :: rest, best => argminAux s rest (if val s i < val s best then i else best)

/-- Index of the absolute minimum of the signal over sample window `a..b`
(first occurrence). -/
def argminIn (s : Signal) (a b : Nat) : Nat :=
  argminAux s (List.range' (a + 1) (b - a)) a

/-- Map a function over every adjacent pair of a list of sample indices. -/
def adjacentMap {α : Type} (f : Nat → Nat → α) : List Nat → List α
  | x :: y :: rest => f x y :: adjacentMap f (y :: rest)
  | _ => []

/-- Modelled from the spec: `find_extrema` returns the peak indices (between
consecutive rising zero-crossings) and trough indices (between consecutive
falling zero-crossings). -/
def find_extrema (s : Signal) : List Nat × List Nat :=
  (adjacentMap (fun a b => argmaxIn s a b) (find_flank_zerox s FlankDir.rise),
   adjacentMap (fun a b => argminIn s a b) (find_flank_zerox s FlankDir.decay))

theorem argmaxAux_mem (s : Signal) :
    ∀ (cands : List Nat) (best : Nat),
      argmaxAux s cands best = best ∨ argmaxAux s cands best ∈ cands := by
  intro cands
  induction cands with
  | nil => intro best; exact Or.inl rfl
  | cons i rest ih =>
    intro best
    simp only [argmaxAux]
    by_cases h : val s best < val s i
    · rw [if_pos h]
      rcases ih i with h2 | h2
      · exact Or.inr (by rw [h2]; exact List.mem_cons_self i rest)
      · exact Or.inr (List.mem_cons_of_mem i h2)
    · rw [if_neg h]
      rcases ih best with h2 | h2
      · exact Or.inl h2
      · exact Or.inr (List.mem_cons_of_mem i h2)

theorem argmaxAux_ge (s : Signal) :
    ∀ (cands : List Nat) (best : Nat),
      val s best ≤ val s (argmaxAux s cands best) ∧
      ∀ c ∈ cands, val s c ≤ val s (argmaxAux s cands best) := by
  intro cands
  induction cands with
  | nil => intro best; exact ⟨le_refl _, fun c hc => absurd hc (List.not_mem_nil c)⟩
  | cons i rest ih =>
    intro best
    simp only [argmaxAux]
    by_cases h : val s best < val s i
    · rw [if_pos h]
      refine ⟨le_trans (le_of_lt h) (ih i).1, fun c hc => ?_⟩
      rcases List.mem_cons.mp hc with rfl | hc
      · exact (ih c).1
      · exact (ih i).2 c hc
    · rw [if_neg h]
      refine ⟨(ih best).1, fun c hc => ?_⟩
      rcases List.mem_cons.mp hc with rfl | hc
      · exact le_trans (le_of_not_lt h) (ih best).1
      · exact (ih best).2 c hc

theorem argminAux_mem (s : Signal) :
    ∀ (cands : List Nat) (best : Nat),
      argminAux s cands best = best ∨ argminAux s cands best ∈ cands := by
  intro cands
  induction cands with
  | nil => intro best; exact Or.inl rfl
  | cons i rest ih =>
    intro best
    simp only [argminAux]
    by_cases h : val s i < val s best
    · rw [if_pos h]
      rcases ih i with h2 | h2
      · exact Or.inr (by rw [h2]; exact List.mem_cons_self i rest)
      · exact Or.inr (List.mem_cons_of_mem i h2)
    · rw [if_neg h]
      rcases ih best with h2 | h2
      · exact Or.inl h2
      · exact Or.inr (List.mem_cons_of_mem i h2)

theorem argminAux_le (s : Signal) :
    ∀ (cands : List Nat) (best : Nat),
      val s (argminAux s cands best) ≤ val s best ∧
      ∀ c ∈ cands, val s (argminAux s cands best) ≤ val s c := by
  intro cands
  induction cands with
  | nil => intro best; exact ⟨le_refl _, fun c hc => absurd hc (List.not_mem_nil c)⟩
  | cons i rest ih =>
    intro best
    simp only [argminAux]
    by_cases h : val s i < val s best
    · rw [if_pos h]
      refine ⟨le_trans (ih i).1 (le_of_lt h), fun c hc => ?_⟩
      rcases List.mem_cons.mp hc with rfl | hc
      · exact (ih c).1
      · exact (ih i).2 c hc
    · rw [if_neg h]
      refine ⟨(ih best).1, fun c hc => ?_⟩
      rcases List.mem_cons.mp hc with rfl | hc
      · exact le_trans (ih best).1 (le_of_not_lt h)
      · exact (ih best).2 c hc

theorem argmaxIn_bounds (s : Signal) (a b : Nat) (hab : a ≤ b) :
    a ≤ argmaxIn s a b ∧ argmaxIn s a b ≤ b := by
  rcases argmaxAux_mem s (List.range' (a + 1) (b - a)) a with h | h
  · rw [argmaxIn, h]
    exact ⟨le_refl a, hab⟩
  · rw [argmaxIn]
    rw [List.mem_range'_1] at h
    omega

theorem argmaxIn_le (s : Signal) (a b : Nat) (i : Nat) (h1 : a ≤ i)
    (h2 : i ≤ b) : val s i ≤ val s (argmaxIn s a b) := by
  rcases Nat.eq_or_lt_of_le h1 with rfl | hlt
  · exact (argmaxAux_ge s (List.range' (a + 1) (b - a)) a).1
  · refine (argmaxAux_ge s (List.range' (a + 1) (b - a)) a).2 i ?_
    rw [List.mem_range'_1]
    omega

theorem argminIn_bounds (s : Signal) (a b : Nat) (hab : a ≤ b) :
    a ≤ argminIn s a b ∧ argminIn s a b ≤ b := by
  rcases argminAux_mem s (List.range' (a + 1) (b - a)) a with h | h
  · rw [argminIn, h]
    exact ⟨le_refl a, hab⟩
  · rw [argminIn]
    rw [List.mem_range'_1] at h
    omega

theorem argminIn_le (s : Signal) (a b : Nat) (i : Nat) (h1 : a ≤ i)
    (h2 : i ≤ b) : val s (argminIn s a b) ≤ val s i := by
  rcases Nat.eq_or_lt_of_le h1 with rfl | hlt
  · exact (argminAux_le s (List.range' (a + 1) (b - a)) a).1
  · refine (argminAux_le s (List.range' (a + 1) (b - a)) a).2 i ?_
    rw [List.mem_range'_1]
    omega

theorem neg_persist (s : Signal) (a : Nat) (hneg : val s a < 0) :
    ∀ b, a ≤ b → b < s.length →
      (∀ i, a ≤ i → i < b → isRiseCross s i = false) → val s b < 0 := by
  intro b hab
  induction b, hab using Nat.le_induction with
  | base => intro _ _; exact hneg
  | succ b hab ih =>
    intro hlen hno
    have hb : val s b < 0 :=
      ih (by omega) (fun i h1 h2 => hno i h1 (by omega))
    by_contra hc
    push_neg at hc
    have hcross : isRiseCross s b = true := by
      simp only [isRiseCross, Bool.and_eq_true, decide_eq_true_eq]
      exact ⟨⟨hlen, hb⟩, hc⟩
    rw [hno b hab (Nat.lt_succ_self b)] at hcross
    exact Bool.false_ne_true hcross

theorem nonneg_persist (s : Signal) (a : Nat) (hpos : 0 ≤ val s a) :
    ∀ b, a ≤ b → b < s.length →
      (∀ i, a ≤ i → i < b → isDecayCross s i = false) → 0 ≤ val s b := by
  intro b hab
  induction b, hab using Nat.le_induction with
  | base => intro _ _; exact hpos
  | succ b hab ih =>
    intro hlen hno
    have hb : 0 ≤ val s b :=
      ih (by omega) (fun i h1 h2 => hno i h1 (by omega))
    by_contra hc
    push_neg at hc
    have hcross : isDecayCross s b = true := by
      simp only [isDecayCross, Bool.and_eq_true, decide_eq_true_eq]
      exact ⟨⟨hlen, hb⟩, hc⟩
    rw [hno b hab (Nat.lt_succ_self b)] at hcross
    exact Bool.false_ne_true hcross

theorem exists_decay_between (s : Signal) (a b : Nat) (hab : a ≤ b)
    (hb : b < s.length) (ha : 0 ≤ val s a) (hbneg : val s b < 0) :
    ∃ i, a ≤ i ∧ i < b ∧ isDecayCross s i = true := by
  by_contra h
  push_neg at h
  have hno : ∀ i, a ≤ i → i < b → isDecayCross s i = false := by
    intro i h1 h2
    exact Bool.not_eq_true _ |>.mp (h i h1 h2)
  exact absurd (nonneg_persist s a ha b hab hb hno) (not_le.mpr hbneg)

theorem exists_rise_between (s : Signal) (a b : Nat) (hab : a ≤ b)
    (hb : b < s.length) (ha : val s a < 0) (hbpos : 0 ≤ val s b) :
    ∃ i, a ≤ i ∧ i < b ∧ isRiseCross s i = true := by
  by_contra h
  push_neg at h
  have hno : ∀ i, a ≤ i → i < b → isRiseCross s i = false := by
    intro i h1 h2
    exact Bool.not_eq_true _ |>.mp (h i h1 h2)
  exact absurd (neg_persist s a ha b hab hb hno) (not_lt.mpr hbpos)

theorem exists_cross_up (s : Signal) (thr : ℚ) (a : Nat) (ha : val s a < thr) :
    ∀ b, a ≤ b → thr ≤ val s b →
      ∃ i, a ≤ i ∧ i < b ∧ val s i < thr ∧ thr ≤ val s (i + 1) := by
  intro b hab
  induction b, hab using Nat.le_induction with
  | base => intro hthr; exact absurd hthr (not_le.mpr ha)
  | succ b hab ih =>
    intro hthr
    by_cases hb : thr ≤ val s b
    · obtain ⟨i, h1, h2, h3, h4⟩ := ih hb
      exact ⟨i, h1, by omega, h3, h4⟩
    · exact ⟨b, hab, Nat.lt_succ_self b, not_le.mp hb, hthr⟩

theorem exists_cross_down (s : Signal) (thr : ℚ) (a : Nat)
    (ha : thr ≤ val s a) :
    ∀ b, a ≤ b → val s b < thr →
      ∃ i, a ≤ i ∧ i < b ∧ thr ≤ val s i ∧ val s (i + 1) < thr := by
  intro b hab
  induction b, hab using Nat.le_induction with
  | base => intro hthr; exact absurd ha (not_le.mpr hthr)
  | succ b hab ih =>
    intro hthr
    by_cases hb : val s b < thr
    · obtain ⟨i, h1, h2, h3, h4⟩ := ih hb
      exact ⟨i, h1, by omega, h3, h4⟩
    · exact ⟨b, hab, Nat.lt_succ_self b, not_lt.mp hb, hthr⟩

/-- Two sample indices occupying adjacent positions of a cyclepoint list. -/
def AdjPair (l : List Nat) (x y : Nat) : Prop :=
  ∃ k, k + 1 < l.length ∧ l.getD k 0 = x ∧ l.getD (k + 1) 0 = y

theorem sorted_getD_lt {l : List Nat} (hs : List.Pairwise (· < ·) l)
    {k m : Nat} (hkm : k < m) (hm : m < l.length) :
    l.getD k 0 < l.getD m 0 := by
  rw [List.getD_eq_getElem _ _ (by omega), List.getD_eq_getElem _ _ hm]
  exact List.pairwise_iff_getElem.mp hs k m (by omega) hm hkm

theorem getD_mem {l : List Nat} {k : Nat} (h : k < l.length) :
    l.getD k 0 ∈ l := by
  rw [List.getD_eq_getElem _ _ h]
  exact List.getElem_mem h

theorem adjPair_lt {l : List Nat} (hs : List.Pairwise (· < ·) l) {x y : Nat}
    (h : AdjPair l x y) : x < y := by
  obtain ⟨k, hk, hx, hy⟩ := h
  rw [← hx, ← hy]
  exact sorted_getD_lt hs (Nat.lt_succ_self k) hk

theorem adjPair_mem {l : List Nat} {x y : Nat} (h : AdjPair l x y) :
    x ∈ l ∧ y ∈ l := by
  obtain ⟨k, hk, hx, hy⟩ := h
  exact ⟨hx ▸ getD_mem (by omega), hy ▸ getD_mem hk⟩

theorem adjPair_not_between {l : List Nat} (hs : List.Pairwise (· < ·) l)
    {x y : Nat} (h : AdjPair l x y) {c : Nat} (hc : c ∈ l) (h1 : x < c)
    (h2 : c < y) : False := by
  obtain ⟨k, hk, hx, hy⟩ := h
  obtain ⟨m, hm, hcm⟩ := List.mem_iff_getElem.mp hc
  have hcD : l.getD m 0 = c := by rw [List.getD_eq_getElem _ _ hm, hcm]
  by_cases hmk : m ≤ k
  · rcases Nat.eq_or_lt_of_le hmk with rfl | hlt
    · omega
    · have := sorted_getD_lt hs hlt (by omega)
      omega
  · have hge : k + 1 ≤ m := by omega
    rcases Nat.eq_or_lt_of_le hge with heq | hlt
    · rw [← heq] at hcD
      omega
    · have := sorted_getD_lt hs hlt hm
      omega

theorem adjPair_of {l : List Nat} (hs : List.Pairwise (· < ·) l) {x y : Nat}
    (hx : x ∈ l) (hy : y ∈ l) (hxy : x < y)
    (hno : ∀ c ∈ l, x < c → c < y → False) : AdjPair l x y := by
  obtain ⟨k, hk, hxk⟩ := List.mem_iff_getElem.mp hx
  obtain ⟨m, hm, hym⟩ := List.mem_iff_getElem.mp hy
  have hkm : k < m := by
    by_contra hcon
    push_neg at hcon
    rcases Nat.eq_or_lt_of_le hcon with rfl | hlt
    · omega
    · have := sorted_getD_lt hs hlt hk
      rw [List.getD_eq_getElem _ _ (by omega), List.getD_eq_getElem _ _ hk] at this
      omega
  have hk1 : k + 1 < l.length := by omega
  have hc1 : x < l.getD (k + 1) 0 := by
    have := sorted_getD_lt hs (Nat.lt_succ_self k) hk1
    rw [List.getD_eq_getElem _ _ (by omega), hxk] at this
    exact this
  have hc2 : l.getD (k + 1) 0 ≤ y := by
    rcases Nat.eq_or_lt_of_le (show k + 1 ≤ m by omega) with heq | hlt
    · subst heq
      rw [List.getD_eq_getElem _ _ hk1, hym]
    · have := sorted_getD_lt hs hlt hm
      rw [List.getD_eq_getElem _ _ hm, hym] at this
      exact le_of_lt this
  rcases Nat.eq_or_lt_of_le hc2 with heq | hlt
  · exact ⟨k, hk1, by rw [List.getD_eq_getElem _ _ (by omega), hxk], heq⟩
  · exact absurd (hno _ (getD_mem hk1) hc1 hlt) (fun h => h)

theorem rises_sorted (s : Signal) :
    List.Pairwise (· < ·) (find_flank_zerox s FlankDir.rise) :=
  (List.pairwise_lt_range s.length).filter (isRiseCross s)

theorem decays_sorted (s : Signal) :
    List.Pairwise (· < ·) (find_flank_zerox s FlankDir.decay) :=
  (List.pairwise_lt_range s.length).filter (isDecayCross s)

theorem riseCross_facts {s : Signal} {i : Nat} (h : isRiseCross s i = true) :
    i + 1 < s.length ∧ val s i < 0 ∧ 0 ≤ val s (i + 1) := by
  simp only [isRiseCross, Bool.and_eq_true, decide_eq_true_eq] at h
  exact ⟨h.1.1, h.1.2, h.2⟩

theorem decayCross_facts {s : Signal} {i : Nat} (h : isDecayCross s i = true) :
    i + 1 < s.length ∧ 0 ≤ val s i ∧ val s (i + 1) < 0 := by
  simp only [isDecayCross, Bool.and_eq_true, decide_eq_true_eq] at h
  exact ⟨h.1.1, h.1.2, h.2⟩

theorem mem_rises {s : Signal} {i : Nat} :
    i ∈ find_flank_zerox s FlankDir.rise ↔ isRiseCross s i = true := by
  simp only [find_flank_zerox, List.mem_filter, List.mem_range]
  constructor
  · exact fun h => h.2
  · intro h
    have := (riseCross_facts h).1
    exact ⟨by omega, h⟩

theorem mem_decays {s : Signal} {i : Nat} :
    i ∈ find_flank_zerox s FlankDir.decay ↔ isDecayCross s i = true := by
  simp only [find_flank_zerox, List.mem_filter, List.mem_range]
  constructor
  · exact fun h => h.2
  · intro h
    have := (decayCross_facts h).1
    exact ⟨by omega, h⟩

theorem not_rise_and_decay {s : Signal} {i : Nat} (h1 : isRiseCross s i = true)
    (h2 : isDecayCross s i = true) : False := by
  have f1 := (riseCross_facts h1).2.1
  have f2 := (decayCross_facts h2).2.1
  exact absurd f2 (not_le.mpr f1)

theorem no_two_decays_between_rises (s : Signal) {r1 r2 d1 d2 : Nat}
    (hadj : AdjPair (find_flank_zerox s FlankDir.rise) r1 r2)
    (hd1 : isDecayCross s d1 = true) (hd2 : isDecayCross s d2 = true)
    (h11 : r1 < d1) (h22 : d2 < r2) (h12 : d1 < d2) : False := by
  have f1 := decayCross_facts hd1
  have f2 := decayCross_facts hd2
  obtain ⟨i, hi1, hi2, hir⟩ :=
    exists_rise_between s (d1 + 1) d2 (by omega) (by omega) f1.2.2 f2.2.1
  exact adjPair_not_between (rises_sorted s) hadj (mem_rises.mpr hir)
    (by omega) (by omega)

theorem no_two_rises_between_decays (s : Signal) {d1 d2 r1 r2 : Nat}
    (hadj : AdjPair (find_flank_zerox s FlankDir.decay) d1 d2)
    (hr1 : isRiseCross s r1 = true) (hr2 : isRiseCross s r2 = true)
    (h11 : d1 < r1) (h22 : r2 < d2) (h12 : r1 < r2) : False := by
  have f1 := riseCross_facts hr1
  have f2 := riseCross_facts hr2
  obtain ⟨i, hi1, hi2, hir⟩ :=
    exists_decay_between s (r1 + 1) r2 (by omega) (by omega) f1.2.2 f2.2.1
  exact adjPair_not_between (decays_sorted s) hadj (mem_decays.mpr hir)
    (by omega) (by omega)

/-- Between two adjacent rising zero-crossings lies exactly one falling
zero-crossing. -/
theorem decay_between_rises (s : Signal) {r1 r2 : Nat}
    (hadj : AdjPair (find_flank_zerox s FlankDir.rise) r1 r2) :
    ∃ d, isDecayCross s d = true ∧ r1 < d ∧ d < r2 ∧
      ∀ e, isDecayCross s e = true → r1 < e → e < r2 → e = d := by
  have hmem := adjPair_mem hadj
  have hr1 := riseCross_facts (mem_rises.mp hmem.1)
  have hr2 := riseCross_facts (mem_rises.mp hmem.2)
  have hlt : r1 < r2 := adjPair_lt (rises_sorted s) hadj
  obtain ⟨d, hd1, hd2, hd⟩ :=
    exists_decay_between s (r1 + 1) r2 (by omega) (by omega) hr1.2.2 hr2.2.1
  refine ⟨d, hd, by omega, hd2, fun e he h1 h2 => ?_⟩
  rcases lt_trichotomy e d with h | h | h
  · exact absurd (no_two_decays_between_rises s hadj he hd h1 hd2 h) (fun x => x)
  · exact h
  · exact absurd (no_two_decays_between_rises s hadj hd he (by omega) h2 h)
      (fun x => x)

/-- Between two adjacent falling zero-crossings lies exactly one rising
zero-crossing. -/
theorem rise_between_decays (s : Signal) {d1 d2 : Nat}
    (hadj : AdjPair (find_flank_zerox s FlankDir.decay) d1 d2) :
    ∃ r, isRiseCross s r = true ∧ d1 < r ∧ r < d2 ∧
      ∀ e, isRiseCross s e = true → d1 < e → e < d2 → e = r := by
  have hmem := adjPair_mem hadj
  have hd1 := decayCross_facts (mem_decays.mp hmem.1)
  have hd2 := decayCross_facts (mem_decays.mp hmem.2)
  have hlt : d1 < d2 := adjPair_lt (decays_sorted s) hadj
  obtain ⟨r, hr1, hr2, hr⟩ :=
    exists_rise_between s (d1 + 1) d2 (by omega) (by omega) hd1.2.2 hd2.2.1
  refine ⟨r, hr, by omega, hr2, fun e he h1 h2 => ?_⟩
  rcases lt_trichotomy e r with h | h | h
  · exact absurd (no_two_rises_between_decays s hadj he hr h1 hr2 h) (fun x => x)
  · exact h
  · exact absurd (no_two_rises_between_decays s hadj hr he (by omega) h2 h)
      (fun x => x)

/-- A peak taken between adjacent rising crossings has nonnegative value and
lies strictly after the first crossing and at or before the falling crossing
separating the two rising crossings. -/
theorem peak_props (s : Signal) {r1 r2 d : Nat}
    (hadj : AdjPair (find_flank_zerox s FlankDir.rise) r1 r2)
    (hd : isDecayCross s d = true) (h1 : r1 < d) (_h2 : d < r2) :
    0 ≤ val s (argmaxIn s r1 r2) ∧ r1 < argmaxIn s r1 r2 ∧
      argmaxIn s r1 r2 ≤ d := by
  have hmem := adjPair_mem hadj
  have hr1 := riseCross_facts (mem_rises.mp hmem.1)
  have hr2 := riseCross_facts (mem_rises.mp hmem.2)
  have hlt : r1 < r2 := adjPair_lt (rises_sorted s) hadj
  have hbounds := argmaxIn_bounds s r1 r2 (by omega)
  have hpos : 0 ≤ val s (argmaxIn s r1 r2) :=
    le_trans hr1.2.2 (argmaxIn_le s r1 r2 (r1 + 1) (by omega) (by omega))
  have hne : argmaxIn s r1 r2 ≠ r1 := by
    intro hcon
    rw [hcon] at hpos
    exact absurd hpos (not_le.mpr hr1.2.1)
  refine ⟨hpos, by omega, ?_⟩
  by_contra hcon
  push_neg at hcon
  have hfd := decayCross_facts hd
  have hnorise : ∀ i, d + 1 ≤ i → i < argmaxIn s r1 r2 →
      isRiseCross s i = false := by
    intro i hi1 hi2
    by_contra hcr
    rw [Bool.not_eq_false] at hcr
    exact adjPair_not_between (rises_sorted s) hadj (mem_rises.mpr hcr)
      (by omega) (by omega)
  have hneg := neg_persist s (d + 1) hfd.2.2 (argmaxIn s r1 r2) (by omega)
    (by omega) hnorise
  exact absurd hpos (not_le.mpr hneg)

/-- A trough taken between adjacent falling crossings has negative value and
lies strictly after the first crossing and at or before the rising crossing
separating the two falling crossings. -/
theorem trough_props (s : Signal) {d1 d2 r : Nat}
    (hadj : AdjPair (find_flank_zerox s FlankDir.decay) d1 d2)
    (hr : isRiseCross s r = true) (h1 : d1 < r) (_h2 : r < d2) :
    val s (argminIn s d1 d2) < 0 ∧ d1 < argminIn s d1 d2 ∧
      argminIn s d1 d2 ≤ r := by
  have hmem := adjPair_mem hadj
  have hd1 := decayCross_facts (mem_decays.mp hmem.1)
  have hd2 := decayCross_facts (mem_decays.mp hmem.2)
  have hlt : d1 < d2 := adjPair_lt (decays_sorted s) hadj
  have hbounds := argminIn_bounds s d1 d2 (by omega)
  have hneg : val s (argminIn s d1 d2) < 0 :=
    lt_of_le_of_lt (argminIn_le s d1 d2 (d1 + 1) (by omega) (by omega)) hd1.2.2
  have hne : argminIn s d1 d2 ≠ d1 := by
    intro hcon
    rw [hcon] at hneg
    exact absurd hd1.2.1 (not_le.mpr hneg)
  refine ⟨hneg, by omega, ?_⟩
  by_contra hcon
  push_neg at hcon
  have hfr := riseCross_facts hr
  have hnodecay : ∀ i, r + 1 ≤ i → i < argminIn s d1 d2 →
      isDecayCross s i = false := by
    intro i hi1 hi2
    by_contra hcr
    rw [Bool.not_eq_false] at hcr
    exact adjPair_not_between (decays_sorted s) hadj (mem_decays.mpr hcr)
      (by omega) (by omega)
  have hpos := nonneg_persist s (r + 1) hfr.2.2 (argminIn s d1 d2) (by omega)
    (by omega) hnodecay
  exact absurd hpos (not_le.mpr hneg)

theorem adjacentMap_length {α : Type} (f : Nat → Nat → α) :
    ∀ l : List Nat, (adjacentMap f l).length = l.length - 1 := by
  intro l
  induction l with
  | nil => rfl
  | cons x rest ih =>
    cases rest with
    | nil => rfl
    | cons y rest2 =>
      simp only [adjacentMap, List.length_cons] at ih ⊢
      omega

theorem adjacentMap_getD {α : Type} (f : Nat → Nat → α) (dd : α) :
    ∀ (l : List Nat) (k : Nat), k + 1 < l.length →
      (adjacentMap f l).getD k dd = f (l.getD k 0) (l.getD (k + 1) 0) := by
  intro l
  induction l with
  | nil => intro k hk; simp at hk
  | cons x rest ih =>
    intro k hk
    cases rest with
    | nil => simp at hk
    | cons y rest2 =>
      cases k with
      | zero => rfl
      | succ k =>
        simp only [adjacentMap, List.getD_cons_succ]
        exact ih (k) (by simpa using Nat.lt_of_succ_lt_succ hk)

theorem mem_adjacentMap {α : Type} (f : Nat → Nat → α) :
    ∀ (l : List Nat) (z : α), z ∈ adjacentMap f l ↔
      ∃ x y, AdjPair l x y ∧ z = f x y := by
  intro l
  induction l with
  | nil =>
    intro z
    simp only [adjacentMap, List.not_mem_nil, false_iff]
    rintro ⟨x, y, ⟨k, hk, _, _⟩, _⟩
    simp at hk
  | cons x rest ih =>
    intro z
    cases rest with
    | nil =>
      simp only [adjacentMap, List.not_mem_nil, false_iff]
      rintro ⟨a, b, ⟨k, hk, _, _⟩, _⟩
      simp at hk
    | cons y rest2 =>
      simp only [adjacentMap, List.mem_cons]
      constructor
      · rintro (rfl | hmem)
        · exact ⟨x, y, ⟨0, by simp, rfl, rfl⟩, rfl⟩
        · obtain ⟨a, b, ⟨k, hk, ha, hb⟩, hz⟩ := (ih z).mp hmem
          exact ⟨a, b, ⟨k + 1, by simpa using Nat.succ_lt_succ hk,
            by simpa using ha, by simpa using hb⟩, hz⟩
      · rintro ⟨a, b, ⟨k, hk, ha, hb⟩, hz⟩
        cases k with
        | zero =>
          left
          simp only [List.getD_cons_zero] at ha
          simp only [List.getD_cons_succ, List.getD_cons_zero] at hb
          rw [hz, ha, hb]
        | succ k =>
          right
          refine (ih z).mpr ⟨a, b, ⟨k, ?_, ?_, ?_⟩, hz⟩
          · simpa using Nat.lt_of_succ_lt_succ hk
          · simpa using ha
          · simpa using hb

/-- Key interleaving fact: strictly between any two adjacent troughs of
`find_extrema` lies a peak of `find_extrema`. -/
theorem peak_between_troughs (s : Signal) (k : Nat)
    (hk : k + 1 < (find_extrema s).2.length) :
    ∃ p ∈ (find_extrema s).1,
      (find_extrema s).2.getD k 0 < p ∧ p < (find_extrema s).2.getD (k + 1) 0 := by
  have hlen : (find_extrema s).2.length =
      (find_flank_zerox s FlankDir.decay).length - 1 := by
    simp only [find_extrema]
    exact adjacentMap_length _ _
  have hkD : k + 2 < (find_flank_zerox s FlankDir.decay).length := by omega
  have hadj1 : AdjPair (find_flank_zerox s FlankDir.decay)
      ((find_flank_zerox s FlankDir.decay).getD k 0)
      ((find_flank_zerox s FlankDir.decay).getD (k + 1) 0) :=
    ⟨k, by omega, rfl, rfl⟩
  have hadj2 : AdjPair (find_flank_zerox s FlankDir.decay)
      ((find_flank_zerox s FlankDir.decay).getD (k + 1) 0)
      ((find_flank_zerox s FlankDir.decay).getD (k + 2) 0) :=
    ⟨k + 1, by omega, rfl, rfl⟩
  obtain ⟨ra, hra, hra1, hra2, hrau⟩ := rise_between_decays s hadj1
  obtain ⟨rb, hrb, hrb1, hrb2, hrbu⟩ := rise_between_decays s hadj2
  have hd1mem : isDecayCross s
      ((find_flank_zerox s FlankDir.decay).getD (k + 1) 0) = true :=
    mem_decays.mp (getD_mem (show k + 1 <
      (find_flank_zerox s FlankDir.decay).length by omega))
  have hadjR : AdjPair (find_flank_zerox s FlankDir.rise) ra rb := by
    refine adjPair_of (rises_sorted s) (mem_rises.mpr hra) (mem_rises.mpr hrb)
      (by omega) ?_
    intro c hc h1 h2
    have hcr := mem_rises.mp hc
    rcases lt_trichotomy c
      ((find_flank_zerox s FlankDir.decay).getD (k + 1) 0) with h | h | h
    · have := hrau c hcr (by omega) h
      omega
    · exact not_rise_and_decay hcr (h ▸ hd1mem)
    · have := hrbu c hcr h (by omega)
      omega
  have hpeak := peak_props s hadjR hd1mem hra2 hrb1
  have htr1 := trough_props s hadj1 hra hra1 hra2
  have htr2 := trough_props s hadj2 hrb hrb1 hrb2
  have hT1 : (find_extrema s).2.getD k 0 =
      argminIn s ((find_flank_zerox s FlankDir.decay).getD k 0)
        ((find_flank_zerox s FlankDir.decay).getD (k + 1) 0) := by
    simp only [find_extrema]
    exact adjacentMap_getD _ _ _ k (by omega)
  have hT2 : (find_extrema s).2.getD (k + 1) 0 =
      argminIn s ((find_flank_zerox s FlankDir.decay).getD (k + 1) 0)
        ((find_flank_zerox s FlankDir.decay).getD (k + 2) 0) := by
    simp only [find_extrema]
    exact adjacentMap_getD _ _ _ (k + 1) (by omega)
  refine ⟨argmaxIn s ra rb, ?_, ?_, ?_⟩
  · simp only [find_extrema]
    exact (mem_adjacentMap _ _ _).mpr ⟨ra, rb, hadjR, rfl⟩
  · rw [hT1]
    omega
  · rw [hT2]
    omega

/-- Key interleaving fact: strictly between any two adjacent peaks of
`find_extrema` lies a trough of `find_extrema`. -/
theorem trough_between_peaks (s : Signal) (k : Nat)
    (hk : k + 1 < (find_extrema s).1.length) :
    ∃ t ∈ (find_extrema s).2,
      (find_extrema s).1.getD k 0 < t ∧ t < (find_extrema s).1.getD (k + 1) 0 := by
  have hlen : (find_extrema s).1.length =
      (find_flank_zerox s FlankDir.rise).length - 1 := by
    simp only [find_extrema]
    exact adjacentMap_length _ _
  have hkR : k + 2 < (find_flank_zerox s FlankDir.rise).length := by omega
  have hadj1 : AdjPair (find_flank_zerox s FlankDir.rise)
      ((find_flank_zerox s FlankDir.rise).getD k 0)
      ((find_flank_zerox s FlankDir.rise).getD (k + 1) 0) :=
    ⟨k, by omega, rfl, rfl⟩
  have hadj2 : AdjPair (find_flank_zerox s FlankDir.rise)
      ((find_flank_zerox s FlankDir.rise).getD (k + 1) 0)
      ((find_flank_zerox s FlankDir.rise).getD (k + 2) 0) :=
    ⟨k + 1, by omega, rfl, rfl⟩
  obtain ⟨da, hda, hda1, hda2, hdau⟩ := decay_between_rises s hadj1
  obtain ⟨db, hdb, hdb1, hdb2, hdbu⟩ := decay_between_rises s hadj2
  have hr1mem : isRiseCross s
      ((find_flank_zerox s FlankDir.rise).getD (k + 1) 0) = true :=
    mem_rises.mp (getD_mem (show k + 1 <
      (find_flank_zerox s FlankDir.rise).length by omega))
  have hadjD : AdjPair (find_flank_zerox s FlankDir.decay) da db := by
    refine adjPair_of (decays_sorted s) (mem_decays.mpr hda)
      (mem_decays.mpr hdb) (by omega) ?_
    intro c hc h1 h2
    have hcr := mem_decays.mp hc
    rcases lt_trichotomy c
      ((find_flank_zerox s FlankDir.rise).getD (k + 1) 0) with h | h | h
    · have := hdau c hcr (by omega) h
      omega
    · exact not_rise_and_decay (h ▸ hr1mem) hcr
    · have := hdbu c hcr h (by omega)
      omega
  have htrough := trough_props s hadjD hr1mem hda2 hdb1
  have hpk1 := peak_props s hadj1 hda hda1 hda2
  have hpk2 := peak_props s hadj2 hdb hdb1 hdb2
  have hP1 : (find_extrema s).1.getD k 0 =
      argmaxIn s ((find_flank_zerox s FlankDir.rise).getD k 0)
        ((find_flank_zerox s FlankDir.rise).getD (k + 1) 0) := by
    simp only [find_extrema]
    exact adjacentMap_getD _ _ _ k (by omega)
  have hP2 : (find_extrema s).1.getD (k + 1) 0 =
      argmaxIn s ((find_flank_zerox s FlankDir.rise).getD (k + 1) 0)
        ((find_flank_zerox s FlankDir.rise).getD (k + 2) 0) := by
    simp only [find_extrema]
    exact adjacentMap_getD _ _ _ (k + 1) (by omega)
  refine ⟨argminIn s da db, ?_, ?_, ?_⟩
  · simp only [find_extrema]
    exact (mem_adjacentMap _ _ _).mpr ⟨da, db, hadjD, rfl⟩
  · rw [hP1]
    omega
  · rw [hP2]
    omega

theorem get_eq_getD (l : List Nat) (k : Nat) (h : k < l.length) :
    l.get ⟨k, h⟩ = l.getD k 0 := by
  rw [List.getD_eq_getElem _ _ h]
  rfl

theorem troughs_sorted (s : Signal) :
    List.Pairwise (· < ·) (find_extrema s).2 := by
  rw [← List.chain'_iff_pairwise, List.chain'_iff_get]
  intro i hilen
  obtain ⟨p, _, h1, h2⟩ := peak_between_troughs s i (by omega)
  rw [get_eq_getD _ i (by omega), get_eq_getD _ (i + 1) (by omega)]
  omega

theorem peaks_sorted (s : Signal) :
    List.Pairwise (· < ·) (find_extrema s).1 := by
  rw [← List.chain'_iff_pairwise, List.chain'_iff_get]
  intro i hilen
  obtain ⟨t, _, h1, h2⟩ := trough_between_peaks s i (by omega)
  rw [get_eq_getD _ i (by omega), get_eq_getD _ (i + 1) (by omega)]
  omega

theorem crossing_count_inv (s : Signal) : ∀ i, i < s.length →
    (0 ≤ val s i →
      (List.range i).countP (isDecayCross s) ≤
        (List.range i).countP (isRiseCross s) ∧
      (List.range i).countP (isRiseCross s) ≤
        (List.range i).countP (isDecayCross s) + 1) ∧
    (val s i < 0 →
      (List.range i).countP (isRiseCross s) ≤
        (List.range i).countP (isDecayCross s) ∧
      (List.range i).countP (isDecayCross s) ≤
        (List.range i).countP (isRiseCross s) + 1) := by
  intro i
  induction i with
  | zero =>
    intro _
    simp [List.range_zero]
  | succ i ih =>
    intro hlen
    have hi : i < s.length := by omega
    have hsplitR : (List.range (i + 1)).countP (isRiseCross s) =
        (List.range i).countP (isRiseCross s) +
          (if isRiseCross s i = true then 1 else 0) := by
      rw [List.range_succ, List.countP_append]
      simp [List.countP_cons]
    have hsplitD : (List.range (i + 1)).countP (isDecayCross s) =
        (List.range i).countP (isDecayCross s) +
          (if isDecayCross s i = true then 1 else 0) := by
      rw [List.range_succ, List.countP_append]
      simp [List.countP_cons]
    rcases le_or_lt 0 (val s i) with h1 | h1
    · have hr : isRiseCross s i = false := by
        by_contra hc
        rw [Bool.not_eq_false] at hc
        exact absurd (riseCross_facts hc).2.1 (not_lt.mpr h1)
      rcases le_or_lt 0 (val s (i + 1)) with h2 | h2
      · have hd : isDecayCross s i = false := by
          by_contra hc
          rw [Bool.not_eq_false] at hc
          exact absurd (decayCross_facts hc).2.2 (not_lt.mpr h2)
        have := (ih hi).1 h1
        constructor
        · intro _
          rw [hsplitR, hsplitD, hr, hd]
          simp only [if_neg (by simp : ¬(false = true))]
          omega
        · intro hcon
          exact absurd h2 (not_le.mpr hcon)
      · have hd : isDecayCross s i = true := by
          simp only [isDecayCross, Bool.and_eq_true, decide_eq_true_eq]
          exact ⟨⟨hlen, h1⟩, h2⟩
        have := (ih hi).1 h1
        constructor
        · intro hcon
          exact absurd hcon (not_le.mpr h2)
        · intro _
          rw [hsplitR, hsplitD, hr, hd]
          simp only [Bool.false_eq_true, if_false, if_true]
          omega
    · have hd : isDecayCross s i = false := by
        by_contra hc
        rw [Bool.not_eq_false] at hc
        exact absurd (decayCross_facts hc).2.1 (not_le.mpr h1)
      rcases le_or_lt 0 (val s (i + 1)) with h2 | h2
      · have hr : isRiseCross s i = true := by
          simp only [isRiseCross, Bool.and_eq_true, decide_eq_true_eq]
          exact ⟨⟨hlen, h1⟩, h2⟩
        have := (ih hi).2 h1
        constructor
        · intro _
          rw [hsplitR, hsplitD, hr, hd]
          simp only [Bool.false_eq_true, if_false, if_true]
          omega
        · intro hcon
          exact absurd hcon (not_lt.mpr h2)
      · have hr : isRiseCross s i = false := by
          by_contra hc
          rw [Bool.not_eq_false] at hc
          exact absurd (riseCross_facts hc).2.2 (not_le.mpr h2)
        have := (ih hi).2 h1
        constructor
        · intro hcon
          exact absurd hcon (not_le.mpr h2)
        · intro _
          rw [hsplitR, hsplitD, hr, hd]
          simp only [if_neg (by simp : ¬(false = true))]
          omega

/-- The numbers of rising and falling zero-crossings differ by at most 1. -/
theorem crossing_counts (s : Signal) :
    (find_flank_zerox s FlankDir.rise).length ≤
      (find_flank_zerox s FlankDir.decay).length + 1 ∧
    (find_flank_zerox s FlankDir.decay).length ≤
      (find_flank_zerox s FlankDir.rise).length + 1 := by
  have hR : (find_flank_zerox s FlankDir.rise).length =
      (List.range s.length).countP (isRiseCross s) := by
    simp only [find_flank_zerox]
    exact (List.countP_eq_length_filter _ _).symm
  have hD : (find_flank_zerox s FlankDir.decay).length =
      (List.range s.length).countP (isDecayCross s) := by
    simp only [find_flank_zerox]
    exact (List.countP_eq_length_filter _ _).symm
  rcases Nat.eq_zero_or_pos s.length with h0 | hpos
  · rw [hR, hD, h0]
    simp
  · have hn : s.length - 1 < s.length := by omega
    have hlast : ∀ p : Signal → Nat → Bool,
        (p s (s.length - 1) = false) →
        (List.range s.length).countP (p s) =
          (List.range (s.length - 1)).countP (p s) := by
      intro p hp
      have : s.length = (s.length - 1) + 1 := by omega
      rw [this, List.range_succ, List.countP_append]
      simp [List.countP_cons, hp]
    have hrf : isRiseCross s (s.length - 1) = false := by
      by_contra hc
      rw [Bool.not_eq_false] at hc
      have := (riseCross_facts hc).1
      omega
    have hdf : isDecayCross s (s.length - 1) = false := by
      by_contra hc
      rw [Bool.not_eq_false] at hc
      have := (decayCross_facts hc).1
      omega
    have inv := crossing_count_inv s (s.length - 1) hn
    rw [hR, hD, hlast isRiseCross hrf, hlast isDecayCross hdf]
    rcases le_or_lt 0 (val s (s.length - 1)) with h | h
    · have := inv.1 h
      omega
    · have := inv.2 h
      omega

/-! ## ZeroCrossingFinder: flank midpoints -/

/-- Midpoint threshold voltage of a flank: the average of the voltages at
its two extrema. -/
def flankThresh (s : Signal) (x y : Nat) : ℚ := (val s x + val s y) / 2

/-- Sample indices within a rise flank at which the signal crosses the
midpoint threshold upward (below the threshold at `i`, at or above it at
`i + 1`), in increasing order. -/
def riseMidCross (s : Signal) (t p : Nat) : List Nat :=
  (List.range' t (p - t)).filter (fun i =>
    decide (val s i < flankThresh s t p) &&
      decide (flankThresh s t p ≤ val s (i + 1)))

/-- Sample indices within a decay flank at which the signal crosses the
midpoint threshold downward, in increasing order. -/
def decayMidCross (s : Signal) (p t2 : Nat) : List Nat :=
  (List.range' p (t2 - p)).filter (fun i =>
    decide (flankThresh s p t2 ≤ val s i) &&
      decide (val s (i + 1) < flankThresh s p t2))

/-- Median element of a sorted list of crossing indices (`none` when the
list is empty; the lower middle element for an even count). -/
def medianIdx (l : List Nat) : Option Nat := l.get? ((l.length - 1) / 2)

/-- Modelled from the spec: the rise-flank midpoint of `find_zerox`.  The
threshold is the average of the trough and peak voltages; if it is crossed
multiple times the median crossing index is reported; if it is crossed zero
times the midpoint is undefined (`none`) and the cycle is flagged for
exclusion. -/
def find_zerox_rise (s : Signal) (t p : Nat) : Option Nat :=
  medianIdx (riseMidCross s t p)

/-- Modelled from the spec: the decay-flank midpoint of `find_zerox`,
symmetric to the rise-flank midpoint. -/
def find_zerox_decay (s : Signal) (p t2 : Nat) : Option Nat :=
  medianIdx (decayMidCross s p t2)

theorem medianIdx_mem {l : List Nat} (h : l ≠ []) :
    ∃ c, medianIdx l = some c ∧ c ∈ l := by
  have hlen : 0 < l.length := List.length_pos.mpr h
  have hidx : (l.length - 1) / 2 < l.length := by omega
  refine ⟨l.getD ((l.length - 1) / 2) 0, ?_, getD_mem hidx⟩
  rw [medianIdx, List.get?_eq_getElem?, List.getD_eq_getElem _ _ hidx]
  exact List.getElem?_eq_some.mpr ⟨hidx, rfl⟩

theorem riseMidCross_sorted (s : Signal) (t p : Nat) :
    List.Pairwise (· < ·) (riseMidCross s t p) :=
  (List.pairwise_lt_range' t (p - t) 1).filter _

theorem decayMidCross_sorted (s : Signal) (p t2 : Nat) :
    List.Pairwise (· < ·) (decayMidCross s p t2) :=
  (List.pairwise_lt_range' p (t2 - p) 1).filter _

theorem mem_riseMidCross {s : Signal} {t p i : Nat} :
    i ∈ riseMidCross s t p ↔
      (t ≤ i ∧ i < t + (p - t)) ∧ val s i < flankThresh s t p ∧
        flankThresh s t p ≤ val s (i + 1) := by
  simp only [riseMidCross, List.mem_filter, List.mem_range'_1,
    Bool.and_eq_true, decide_eq_true_eq]

theorem mem_decayMidCross {s : Signal} {p t2 i : Nat} :
    i ∈ decayMidCross s p t2 ↔
      (p ≤ i ∧ i < p + (t2 - p)) ∧ flankThresh s p t2 ≤ val s i ∧
        val s (i + 1) < flankThresh s p t2 := by
  simp only [decayMidCross, List.mem_filter, List.mem_range'_1,
    Bool.and_eq_true, decide_eq_true_eq]

theorem riseMidCross_nonempty (s : Signal) {t p : Nat} (htp : t < p)
    (h1 : val s t < flankThresh s t p) (h2 : flankThresh s t p ≤ val s p) :
    riseMidCross s t p ≠ [] := by
  obtain ⟨i, hi1, hi2, hi3, hi4⟩ :=
    exists_cross_up s (flankThresh s t p) t h1 p (by omega) h2
  exact List.ne_nil_of_mem (mem_riseMidCross.mpr ⟨⟨hi1, by omega⟩, hi3, hi4⟩)

theorem decayMidCross_nonempty (s : Signal) {p t2 : Nat} (htp : p < t2)
    (h1 : flankThresh s p t2 ≤ val s p) (h2 : val s t2 < flankThresh s p t2) :
    decayMidCross s p t2 ≠ [] := by
  obtain ⟨i, hi1, hi2, hi3, hi4⟩ :=
    exists_cross_down s (flankThresh s p t2) p h1 t2 (by omega) h2
  exact List.ne_nil_of_mem (mem_decayMidCross.mpr ⟨⟨hi1, by omega⟩, hi3, hi4⟩)

/-! ## CycleFeatureComputer: cycle assembly (the pipeline) -/

/-- Cyclepoint sample indices of one full cycle, from trough to next
trough. -/
structure Cycle where
  sample_trough : Nat
  sample_rise : Nat
  sample_peak : Nat
  sample_decay : Nat
  sample_next_trough : Nat

/-- Assemble the cycle spanning troughs `t` to `t2`: the peak between them
and the two flank midpoints; `none` when the peak or either midpoint cannot
be localized (cycle excluded). -/
def assembleCycle (s : Signal) (pks : List Nat) (t t2 : Nat) : Option Cycle :=
  match pks.find? (fun p => decide (t < p) && decide (p < t2)) with
  | none => none
  | some p =>
    match find_zerox_rise s t p, find_zerox_decay s p t2 with
    | some r, some d => some ⟨t, r, p, d, t2⟩
    | _, _ => none

/-- Modelled from the spec: the cycle-table builder of `compute_features`.
Every adjacent pair of detected troughs delimits one cycle; the cycles are
contiguous, ordered by time, and cover the signal from the first to the
last detected trough. -/
def compute_features (s : Signal) : List (Option Cycle) :=
  adjacentMap (fun t t2 => assembleCycle s (find_extrema s).1 t t2)
    (find_extrema s).2

theorem peaks_nonneg (s : Signal) {p : Nat} (hp : p ∈ (find_extrema s).1) :
    0 ≤ val s p := by
  obtain ⟨r1, r2, hadj, rfl⟩ := (mem_adjacentMap _ _ _).mp hp
  have hr1 := riseCross_facts (mem_rises.mp (adjPair_mem hadj).1)
  have hlt : r1 < r2 := adjPair_lt (rises_sorted s) hadj
  exact le_trans hr1.2.2 (argmaxIn_le s r1 r2 (r1 + 1) (by omega) (by omega))

theorem troughs_neg (s : Signal) {t : Nat} (ht : t ∈ (find_extrema s).2) :
    val s t < 0 := by
  obtain ⟨d1, d2, hadj, rfl⟩ := (mem_adjacentMap _ _ _).mp ht
  have hd1 := decayCross_facts (mem_decays.mp (adjPair_mem hadj).1)
  have hlt : d1 < d2 := adjPair_lt (decays_sorted s) hadj
  exact lt_of_le_of_lt (argminIn_le s d1 d2 (d1 + 1) (by omega) (by omega))
    hd1.2.2

/-- Assembling a cycle between two troughs that have a peak between them
always succeeds, and the resulting cyclepoints satisfy
trough ≤ rise midpoint < peak ≤ decay midpoint < next trough. -/
theorem assembleCycle_spec (s : Signal) (t t2 : Nat)
    (ht : t ∈ (find_extrema s).2) (ht2 : t2 ∈ (find_extrema s).2)
    (hex : ∃ p ∈ (find_extrema s).1, t < p ∧ p < t2) :
    ∃ c : Cycle, assembleCycle s (find_extrema s).1 t t2 = some c ∧
      c.sample_trough = t ∧ c.sample_next_trough = t2 ∧
      t ≤ c.sample_rise ∧ c.sample_rise < c.sample_peak ∧
      c.sample_peak ≤ c.sample_decay ∧ c.sample_decay < t2 := by
  have hsome : ((find_extrema s).1.find?
      (fun p => decide (t < p) && decide (p < t2))).isSome := by
    rw [List.find?_isSome]
    obtain ⟨p, hpmem, hp1, hp2⟩ := hex
    exact ⟨p, hpmem, by simp [hp1, hp2]⟩
  obtain ⟨p0, hp0⟩ := Option.isSome_iff_exists.mp hsome
  have hp0pred := List.find?_some hp0
  simp only [Bool.and_eq_true, decide_eq_true_eq] at hp0pred
  have hp0mem := List.mem_of_find?_eq_some hp0
  have htneg : val s t < 0 := troughs_neg s ht
  have ht2neg : val s t2 < 0 := troughs_neg s ht2
  have hppos : 0 ≤ val s p0 := peaks_nonneg s hp0mem
  have hthr1 : val s t < flankThresh s t p0 := by
    unfold flankThresh
    linarith
  have hthr2 : flankThresh s t p0 ≤ val s p0 := by
    unfold flankThresh
    linarith
  have hrne := riseMidCross_nonempty s hp0pred.1 hthr1 hthr2
  obtain ⟨r, hreq, hrmem⟩ := medianIdx_mem hrne
  have hrbounds := (mem_riseMidCross.mp hrmem).1
  have hthr3 : flankThresh s p0 t2 ≤ val s p0 := by
    unfold flankThresh
    linarith
  have hthr4 : val s t2 < flankThresh s p0 t2 := by
    unfold flankThresh
    linarith
  have hdne := decayMidCross_nonempty s hp0pred.2 hthr3 hthr4
  obtain ⟨d, hdeq, hdmem⟩ := medianIdx_mem hdne
  have hdbounds := (mem_decayMidCross.mp hdmem).1
  have hp1 : t < p0 := hp0pred.1
  have hp2 : p0 < t2 := hp0pred.2
  refine ⟨⟨t, r, p0, d, t2⟩, ?_, rfl, rfl, ?_, ?_, ?_, ?_⟩
  · rw [assembleCycle, hp0]
    show (match find_zerox_rise s t p0, find_zerox_decay s p0 t2 with
      | some rr, some dd =>
        some (⟨t, rr, p0, dd, t2⟩ : Cycle)
      | _, _ => none) = some ⟨t, r, p0, d, t2⟩
    rw [find_zerox_rise, find_zerox_decay, hreq, hdeq]
  · show t ≤ r
    omega
  · show r < p0
    omega
  · show p0 ≤ d
    omega
  · show d < t2
    omega

/-- Every adjacent pair of troughs yields an assembled cycle whose
cyclepoints satisfy trough ≤ rise midpoint < peak ≤ decay midpoint < next
trough, with the trough fields matching the trough list. -/
theorem compute_features_spec (s : Signal) (k : Nat)
    (hk : k + 1 < (find_extrema s).2.length) :
    ∃ c : Cycle, (compute_features s).getD k none = some c ∧
      c.sample_trough = (find_extrema s).2.getD k 0 ∧
      c.sample_next_trough = (find_extrema s).2.getD (k + 1) 0 ∧
      c.sample_trough ≤ c.sample_rise ∧ c.sample_rise < c.sample_peak ∧
      c.sample_peak ≤ c.sample_decay ∧
      c.sample_decay < c.sample_next_trough := by
  have hgetD : (compute_features s).getD k none =
      assembleCycle s (find_extrema s).1 ((find_extrema s).2.getD k 0)
        ((find_extrema s).2.getD (k + 1) 0) := by
    rw [compute_features]
    exact adjacentMap_getD _ _ _ k hk
  obtain ⟨c, hceq, hct, hct2, ho1, ho2, ho3, ho4⟩ :=
    assembleCycle_spec s ((find_extrema s).2.getD k 0)
      ((find_extrema s).2.getD (k + 1) 0) (getD_mem (by omega)) (getD_mem hk)
      (peak_between_troughs s k hk)
  exact ⟨c, by rw [hgetD, hceq], hct, hct2, by omega, ho2, ho3, by omega⟩

theorem sorted_filter_count (l : List Nat)
    (hs : List.Pairwise (· < ·) l) (m : Nat) (hm : m < l.length) :
    (l.filter (fun x => decide (x < l.getD m 0))).length = m ∧
    (l.filter (fun x => decide (l.getD m 0 < x))).length = l.length - m - 1 := by
  have hgm : l.getD m 0 = l[m] := List.getD_eq_getElem _ _ hm
  constructor
  · have hsplit : l.filter (fun x => decide (x < l.getD m 0)) =
        (l.take m).filter (fun x => decide (x < l.getD m 0)) ++
          (l.drop m).filter (fun x => decide (x < l.getD m 0)) := by
      rw [← List.filter_append, List.take_append_drop]
    rw [hsplit]
    have h1 : (l.take m).filter (fun x => decide (x < l.getD m 0)) =
        l.take m := by
      rw [List.filter_eq_self]
      intro a ha
      obtain ⟨i, hi, hia⟩ := List.mem_take_iff_getElem.mp ha
      have hilt : i < m := by
        simp only [lt_min_iff] at hi
        exact hi.1
      rw [← hia, hgm]
      simpa using List.pairwise_iff_getElem.mp hs i m (by omega) hm hilt
    have h2 : (l.drop m).filter (fun x => decide (x < l.getD m 0)) = [] := by
      rw [List.filter_eq_nil_iff]
      intro a ha
      obtain ⟨i, hi, hia⟩ := List.mem_drop_iff_getElem.mp ha
      rw [← hia, hgm]
      simp only [decide_eq_true_eq, not_lt]
      rcases Nat.eq_zero_or_pos i with rfl | hpos
      · simp
      · exact le_of_lt (List.pairwise_iff_getElem.mp hs m (m + i) hm
          (by omega) (by omega))
    rw [h1, h2, List.length_append, List.length_take]
    simp
    omega
  · have hsplit : l.filter (fun x => decide (l.getD m 0 < x)) =
        (l.take (m + 1)).filter (fun x => decide (l.getD m 0 < x)) ++
          (l.drop (m + 1)).filter (fun x => decide (l.getD m 0 < x)) := by
      rw [← List.filter_append, List.take_append_drop]
    rw [hsplit]
    have h1 : (l.take (m + 1)).filter (fun x => decide (l.getD m 0 < x)) =
        [] := by
      rw [List.filter_eq_nil_iff]
      intro a ha
      obtain ⟨i, hi, hia⟩ := List.mem_take_iff_getElem.mp ha
      have hile : i ≤ m := by
        simp only [lt_min_iff] at hi
        omega
      rw [← hia, hgm]
      simp only [decide_eq_true_eq, not_lt]
      rcases Nat.eq_or_lt_of_le hile with rfl | hlt
      · simp
      · exact le_of_lt (List.pairwise_iff_getElem.mp hs i m (by omega) hm hlt)
    have h2 : (l.drop (m + 1)).filter (fun x => decide (l.getD m 0 < x)) =
        l.drop (m + 1) := by
      rw [List.filter_eq_self]
      intro a ha
      obtain ⟨i, hi, hia⟩ := List.mem_drop_iff_getElem.mp ha
      rw [← hia, hgm]
      simpa using List.pairwise_iff_getElem.mp hs m (m + 1 + i) hm (by omega)
        (by omega)
    rw [h1, h2, List.nil_append, List.length_drop]
    omega

/-- With an odd number of crossings `2 * m + 1`, the reported median crossing
is an element of the crossing list with exactly `m` crossings strictly below
it and `m` strictly above it. -/
theorem medianIdx_median (l : List Nat) (hs : List.Pairwise (· < ·) l)
    (m : Nat) (hlen : l.length = 2 * m + 1) :
    ∃ c, medianIdx l = some c ∧ c ∈ l ∧
      (l.filter (fun x => decide (x < c))).length = m ∧
      (l.filter (fun x => decide (c < x))).length = m := by
  have hm : m < l.length := by omega
  have hne : l ≠ [] := by
    intro hcon
    rw [hcon] at hlen
    simp at hlen
  have hidx : (l.length - 1) / 2 = m := by omega
  have hcount := sorted_filter_count l hs m hm
  refine ⟨l.getD m 0, ?_, getD_mem hm, hcount.1, ?_⟩
  · rw [medianIdx, hidx, List.get?_eq_getElem?, List.getD_eq_getElem _ _ hm]
    exact List.getElem?_eq_some.mpr ⟨hm, rfl⟩
  · rw [hcount.2, hlen]
    omega

/-! ## Claim theorems -/

/-- C2: for every magnitude series and configuration with
low ≤ high, `detect_bursts_dual_threshold` returns a boolean mask of the
same length as the signal in which a sample is `true` exactly when a burst
was entered at some earlier-or-equal sample (first sample whose normalized
magnitude exceeds the high threshold) and had not yet exited before it
(no strictly intermediate sample fell below the low threshold; the exit
sample itself, inclusive, is marked); a configuration with low > high is
rejected (`none`) rather than computed. -/
theorem claim_C2_dual_threshold_contract (env : List ℚ) (fs : ℚ)
    (lo hi : ℚ) (fr : ℚ × ℚ) (avgType : AvgType) (magType : MagType) :
    (lo ≤ hi →
      ∃ mask, detect_bursts_dual_threshold env fs (lo, hi) fr avgType
          magType = some mask ∧
        mask.length = env.length ∧
        ∀ i, i < env.length →
          (mask.getD i false = true ↔
            ∃ e, e ≤ i ∧
              hi < (relativeMagnitude env avgType magType).getD e 0 ∧
              ∀ j, e < j → j < i →
                lo ≤ (relativeMagnitude env avgType magType).getD j 0)) ∧
    (hi < lo →
      detect_bursts_dual_threshold env fs (lo, hi) fr avgType magType =
        none) := by
  constructor
  · intro hle
    refine ⟨dualScan lo hi (relativeMagnitude env avgType magType) false,
      ?_, ?_, ?_⟩
    · rw [detect_bursts_dual_threshold, if_neg (not_lt.mpr hle)]
    · rw [dualScan_length, relativeMagnitude_length]
    · intro i hilen
      have hlen : i < (relativeMagnitude env avgType magType).length := by
        rw [relativeMagnitude_length]
        exact hilen
      rw [dualScan_spec lo hi hle _ false i hlen]
      simp

  · intro hgt
    rw [detect_bursts_dual_threshold, if_pos hgt]

/-- C2 witness: a concrete magnitude series and valid configuration. -/
theorem claim_C2_witness :
    (1 : ℚ) ≤ 2 ∧
    ∃ mask, detect_bursts_dual_threshold [0, 5, 0] 1000 (1, 2) (8, 12)
        AvgType.mean MagType.amplitude = some mask ∧
      mask.length = ([0, 5, 0] : List ℚ).length ∧
      ∀ i, i < ([0, 5, 0] : List ℚ).length →
        (mask.getD i false = true ↔
          ∃ e, e ≤ i ∧
            2 < (relativeMagnitude [0, 5, 0] AvgType.mean
              MagType.amplitude).getD e 0 ∧
            ∀ j, e < j → j < i →
              1 ≤ (relativeMagnitude [0, 5, 0] AvgType.mean
                MagType.amplitude).getD j 0) :=
  ⟨by norm_num,
   (claim_C2_dual_threshold_contract [0, 5, 0] 1000 1 2 (8, 12) AvgType.mean
     MagType.amplitude).1 (by norm_num)⟩

/-- C8: raising the high threshold can only shrink or preserve the set of
burst samples, and lowering the low threshold can only grow or preserve it
(so no detected burst ever shrinks below its high-threshold crossing),
pointwise on the returned masks. -/
theorem claim_C8_threshold_monotonicity (env : List ℚ) (fs : ℚ)
    (fr : ℚ × ℚ) (avgType : AvgType) (magType : MagType) :
    (∀ (lo hi1 hi2 : ℚ) (mask1 mask2 : List Bool), hi1 ≤ hi2 →
      detect_bursts_dual_threshold env fs (lo, hi1) fr avgType magType =
        some mask1 →
      detect_bursts_dual_threshold env fs (lo, hi2) fr avgType magType =
        some mask2 →
      ∀ i, mask2.getD i false = true → mask1.getD i false = true) ∧
    (∀ (lo1 lo2 hi : ℚ) (mask1 mask2 : List Bool), lo1 ≤ lo2 →
      detect_bursts_dual_threshold env fs (lo1, hi) fr avgType magType =
        some mask1 →
      detect_bursts_dual_threshold env fs (lo2, hi) fr avgType magType =
        some mask2 →
      ∀ i, mask2.getD i false = true → mask1.getD i false = true) := by
  constructor
  · intro lo hi1 hi2 mask1 mask2 hh h1 h2 i hm
    rw [detect_bursts_dual_threshold] at h1 h2
    by_cases hc1 : (lo, hi1).2 < (lo, hi1).1
    · rw [if_pos hc1] at h1
      exact absurd h1 (by simp)
    · by_cases hc2 : (lo, hi2).2 < (lo, hi2).1
      · rw [if_pos hc2] at h2
        exact absurd h2 (by simp)
      · rw [if_neg hc1] at h1
        rw [if_neg hc2] at h2
        rw [← Option.some.inj h1]
        rw [← Option.some.inj h2] at hm
        exact dualScan_mono lo lo hi1 hi2 (le_refl lo) hh _ false false
          (fun h => h) i hm
  · intro lo1 lo2 hi mask1 mask2 hl h1 h2 i hm
    rw [detect_bursts_dual_threshold] at h1 h2
    by_cases hc1 : (lo1, hi).2 < (lo1, hi).1
    · rw [if_pos hc1] at h1
      exact absurd h1 (by simp)
    · by_cases hc2 : (lo2, hi).2 < (lo2, hi).1
      · rw [if_pos hc2] at h2
        exact absurd h2 (by simp)
      · rw [if_neg hc1] at h1
        rw [if_neg hc2] at h2
        rw [← Option.some.inj h1]
        rw [← Option.some.inj h2] at hm
        exact dualScan_mono lo1 lo2 hi hi hl (le_refl hi) _ false false
          (fun h => h) i hm

/-- C8 witness: a concrete series where raising the high threshold from 3/2
to 2 removes burst samples but never adds any. -/
theorem claim_C8_witness :
    (3 / 2 : ℚ) ≤ 2 ∧
    detect_bursts_dual_threshold [4, 1] 1000 (1, 3 / 2) (8, 12) AvgType.mean
      MagType.amplitude = some [true, true] ∧
    detect_bursts_dual_threshold [4, 1] 1000 (1, 2) (8, 12) AvgType.mean
      MagType.amplitude = some [false, false] ∧
    ∀ i, ([false, false] : List Bool).getD i false = true →
      ([true, true] : List Bool).getD i false = true := by
  have h1 : detect_bursts_dual_threshold [4, 1] 1000 (1, 3 / 2) (8, 12)
      AvgType.mean MagType.amplitude = some [true, true] := by
    norm_num [detect_bursts_dual_threshold, relativeMagnitude, magSeries,
      averageQ, dualScan]
  have h2 : detect_bursts_dual_threshold [4, 1] 1000 (1, 2) (8, 12)
      AvgType.mean MagType.amplitude = some [false, false] := by
    norm_num [detect_bursts_dual_threshold, relativeMagnitude, magSeries,
      averageQ, dualScan]
  exact ⟨by norm_num, h1, h2,
    (claim_C8_threshold_monotonicity [4, 1] 1000 (8, 12) AvgType.mean
      MagType.amplitude).1 1 (3 / 2) 2 [true, true] [false, false]
      (by norm_num) h1 h2⟩

/-- C3: for every candidate labeling and every min_n_cycles ≥ 1, the
confirmed burst column has the length of the candidate column, confirmation
only ever demotes candidates, and a cycle is confirmed exactly when it sits
in an all-candidate window of at least min_n_cycles cycles — equivalently,
exactly when its maximal candidate run has length at least min_n_cycles, so
every shorter run is demoted and every long-enough run is confirmed. -/
theorem claim_C3_min_n_cycles (cands : List Bool) (minN : Nat)
    (_hmin : 1 ≤ minN) :
    (confirmBursts minN cands).length = cands.length ∧
    (∀ i, (confirmBursts minN cands).getD i false = true →
      cands.getD i false = true) ∧
    ∀ i, ((confirmBursts minN cands).getD i false = true ↔
      ∃ a b, a ≤ i ∧ i ≤ b ∧ minN ≤ b + 1 - a ∧
        ∀ j, a ≤ j → j ≤ b → cands.getD j false = true) := by
  refine ⟨confirmBursts_length minN cands, ?_, confirmBursts_spec minN cands⟩
  intro i hi
  obtain ⟨a, b, ha, hb, _, hall⟩ := (confirmBursts_spec minN cands i).mp hi
  exact hall i ha hb

/-- C3 witness: a concrete candidate labeling with a short run (length 2)
and a long run (length 3) under min_n_cycles = 3. -/
theorem claim_C3_witness :
    1 ≤ 3 ∧
    ((confirmBursts 3 [true, true, false, true, true, true]).length =
      ([true, true, false, true, true, true] : List Bool).length ∧
    (∀ i, (confirmBursts 3 [true, true, false, true, true, true]).getD i
        false = true →
      ([true, true, false, true, true, true] : List Bool).getD i false =
        true) ∧
    ∀ i, ((confirmBursts 3 [true, true, false, true, true, true]).getD i
        false = true ↔
      ∃ a b, a ≤ i ∧ i ≤ b ∧ 3 ≤ b + 1 - a ∧
        ∀ j, a ≤ j → j ≤ b →
          ([true, true, false, true, true, true] : List Bool).getD j false =
            true)) :=
  ⟨by decide,
   claim_C3_min_n_cycles [true, true, false, true, true, true] 3 (by decide)⟩

/-- C9: burst statistics over a mask with no `true` sample explicitly report
zero bursts with undefined (`none`) duration statistics; in general the
burst count equals the number of rising edges of the mask (the number of its
maximal `true` runs) and the burst fraction is the fraction of `true`
samples. -/
theorem claim_C9_burst_stats (mask : List Bool) (fs : ℚ) :
    ((∀ b ∈ mask, b = false) →
      (compute_burst_stats mask fs).n_bursts = 0 ∧
      (compute_burst_stats mask fs).duration_min = none ∧
      (compute_burst_stats mask fs).duration_max = none ∧
      (compute_burst_stats mask fs).duration_mean = none) ∧
    (compute_burst_stats mask fs).n_bursts = risingEdges mask false ∧
    (compute_burst_stats mask fs).percent_burst =
      (mask.countP (fun b => b) : ℚ) / mask.length := by
  refine ⟨?_, ?_, rfl⟩
  · intro hfalse
    have hruns : burstRuns mask = [] := burstRuns_of_all_false mask hfalse
    simp [compute_burst_stats, hruns]
  · simp only [compute_burst_stats]
    exact burstRuns_length mask

/-- C9 witness: the all-false mask of length 2. -/
theorem claim_C9_witness :
    (∀ b ∈ ([false, false] : List Bool), b = false) ∧
    ((compute_burst_stats [false, false] 2).n_bursts = 0 ∧
      (compute_burst_stats [false, false] 2).duration_min = none ∧
      (compute_burst_stats [false, false] 2).duration_max = none ∧
      (compute_burst_stats [false, false] 2).duration_mean = none) :=
  ⟨by decide, (claim_C9_burst_stats [false, false] 2).1 (by decide)⟩

/-- C10 counterexample: with equal thresholds (3/2, 3/2) on the magnitude
series [9, 1] (normalized by the mean to [9/5, 1/5]) the detector marks
sample 1 as bursting although its normalized magnitude 1/5 is below the
threshold: the exit sample is included in the burst, so the mask is not
exactly the maximal runs of samples above the single threshold. -/
theorem claim_C10_counterexample :
    detect_bursts_dual_threshold [9, 1] 1000 (3 / 2, 3 / 2) (8, 12)
      AvgType.mean MagType.amplitude = some [true, true] ∧
    (relativeMagnitude [9, 1] AvgType.mean MagType.amplitude).getD 1 0 <
      3 / 2 := by
  constructor
  · norm_num [detect_bursts_dual_threshold, relativeMagnitude, magSeries,
      averageQ, dualScan]
  · norm_num [relativeMagnitude, magSeries, averageQ]

/-- C10 (amended): the degenerate configuration low = high = t is accepted
with no error, and the returned mask is `true` at a sample exactly when some
earlier-or-equal sample strictly exceeded t and no strictly intermediate
sample fell strictly below t — each span from an entry sample through the
first subsequent sample strictly below the threshold, inclusive. -/
theorem claim_C10_equal_thresholds (env : List ℚ) (fs thr : ℚ) (fr : ℚ × ℚ)
    (avgType : AvgType) (magType : MagType) :
    ∃ mask, detect_bursts_dual_threshold env fs (thr, thr) fr avgType
        magType = some mask ∧
      mask.length = env.length ∧
      ∀ i, i < env.length →
        (mask.getD i false = true ↔
          ∃ e, e ≤ i ∧
            thr < (relativeMagnitude env avgType magType).getD e 0 ∧
            ∀ j, e < j → j < i →
              thr ≤ (relativeMagnitude env avgType magType).getD j 0) := by
  refine ⟨dualScan thr thr (relativeMagnitude env avgType magType) false,
    ?_, ?_, ?_⟩
  · rw [detect_bursts_dual_threshold, if_neg (lt_irrefl thr)]
  · rw [dualScan_length, relativeMagnitude_length]
  · intro i hilen
    rw [dualScan_spec thr thr (le_refl thr) _ false i
      (by rw [relativeMagnitude_length]; exact hilen)]
    simp

/-- C10 witness: the amended characterization evaluated on the magnitude
series [9, 1] with threshold 3/2. -/
theorem claim_C10_witness :
    ∃ mask, detect_bursts_dual_threshold [9, 1] 1000 (3 / 2, 3 / 2) (8, 12)
        AvgType.mean MagType.amplitude = some mask ∧
      mask.length = ([9, 1] : List ℚ).length ∧
      ∀ i, i < ([9, 1] : List ℚ).length →
        (mask.getD i false = true ↔
          ∃ e, e ≤ i ∧
            3 / 2 < (relativeMagnitude [9, 1] AvgType.mean
              MagType.amplitude).getD e 0 ∧
            ∀ j, e < j → j < i →
              3 / 2 ≤ (relativeMagnitude [9, 1] AvgType.mean
                MagType.amplitude).getD j 0) :=
  claim_C10_equal_thresholds [9, 1] 1000 (3 / 2) (8, 12) AvgType.mean
    MagType.amplitude

/-- C4: the amplitude-consistency score of an interior cycle with
nonnegative flank amplitudes is the minimum over the three adjacent
rise/decay pairs involving the cycle's flanks of the min/max ratio of the
pair, hence lies in the interval from 0 to 1; a boundary cycle gets the
undefined score `none` and is labeled non-burst by the classifier. -/
theorem claim_C4_amplitude_consistency :
    (∀ (rises decays : List ℚ) (i : Nat), 1 ≤ i → i + 1 < rises.length →
      i + 1 < decays.length → (∀ x ∈ rises, 0 ≤ x) →
      (∀ x ∈ decays, 0 ≤ x) →
      ∃ v, amp_consistency rises decays i = some v ∧ 0 ≤ v ∧ v ≤ 1 ∧
        v = min (ampRatio (rises.getD i 0) (decays.getD i 0))
          (min (ampRatio (decays.getD (i - 1) 0) (rises.getD i 0))
            (ampRatio (rises.getD (i + 1) 0) (decays.getD i 0)))) ∧
    (∀ (rises decays periods : List ℚ) (mono ampFrac : List (Option ℚ))
      (cfg : ThresholdKwargs) (i : Nat), i = 0 ∨ rises.length ≤ i + 1 →
      amp_consistency rises decays i = none ∧
      (detect_bursts_cycles rises decays periods mono ampFrac cfg).getD i
        false = false) := by
  constructor
  · intro rises decays i h1 h2 h3 hr hd
    rw [amp_consistency, if_pos ⟨h1, h2, h3⟩]
    have b1 := ampRatio_bounds (getD_nonneg_of_forall hr i)
      (getD_nonneg_of_forall hd i)
    have b2 := ampRatio_bounds (getD_nonneg_of_forall hd (i - 1))
      (getD_nonneg_of_forall hr i)
    have b3 := ampRatio_bounds (getD_nonneg_of_forall hr (i + 1))
      (getD_nonneg_of_forall hd i)
    refine ⟨_, rfl, ?_, ?_, rfl⟩
    · exact le_min b1.1 (le_min b2.1 b3.1)
    · exact le_trans (min_le_left _ _) b1.2
  · intro rises decays periods mono ampFrac cfg i hbound
    have hnone : amp_consistency rises decays i = none := by
      rw [amp_consistency, if_neg]
      rintro ⟨hc1, hc2, hc3⟩
      rcases hbound with rfl | hge
      · omega
      · omega
    refine ⟨hnone, ?_⟩
    by_cases hlen : i < rises.length
    · by_contra hcon
      rw [Bool.not_eq_false] at hcon
      rw [detect_bursts_cycles] at hcon
      obtain ⟨a, b, ha, hb, _, hall⟩ :=
        (confirmBursts_spec cfg.min_n_cycles _ i).mp hcon
      have hcand := hall i ha hb
      rw [getD_map_range _ _ _ _ hlen, hnone] at hcand
      simp [passes] at hcand
    · rw [List.getD_eq_getElem?_getD, List.getElem?_eq_none]
      · rfl
      · rw [detect_bursts_cycles, confirmBursts_length, List.length_map,
          List.length_range]
        omega

/-- C4 witness: the interior cycle 1 of a four-cycle table with amplitudes
in the unit range, and boundary cycle 0 demoted to non-burst. -/
theorem claim_C4_witness :
    ((1 : Nat) ≤ 1 ∧ 1 + 1 < ([1, 2, 2, 1] : List ℚ).length ∧
      1 + 1 < ([2, 2, 1, 1] : List ℚ).length ∧
      (∀ x ∈ ([1, 2, 2, 1] : List ℚ), 0 ≤ x) ∧
      (∀ x ∈ ([2, 2, 1, 1] : List ℚ), 0 ≤ x) ∧
      ∃ v, amp_consistency [1, 2, 2, 1] [2, 2, 1, 1] 1 = some v ∧
        0 ≤ v ∧ v ≤ 1 ∧
        v = min (ampRatio (([1, 2, 2, 1] : List ℚ).getD 1 0)
            (([2, 2, 1, 1] : List ℚ).getD 1 0))
          (min (ampRatio (([2, 2, 1, 1] : List ℚ).getD 0 0)
              (([1, 2, 2, 1] : List ℚ).getD 1 0))
            (ampRatio (([1, 2, 2, 1] : List ℚ).getD 2 0)
              (([2, 2, 1, 1] : List ℚ).getD 1 0)))) ∧
    (amp_consistency [1, 2, 2, 1] [2, 2, 1, 1] 0 = none ∧
      (detect_bursts_cycles [1, 2, 2, 1] [2, 2, 1, 1] [1, 1, 1, 1]
        [some 1, some 1, some 1, some 1] [some 1, some 1, some 1, some 1]
        ⟨0, 2 / 5, 1 / 2, 4 / 5, 3⟩).getD 0 false = false) := by
  constructor
  · refine ⟨le_refl 1, by decide, by decide, by decide, by decide, ?_⟩
    exact (claim_C4_amplitude_consistency.1 [1, 2, 2, 1] [2, 2, 1, 1] 1
      (le_refl 1) (by decide) (by decide) (by decide) (by decide))
  · exact claim_C4_amplitude_consistency.2 [1, 2, 2, 1] [2, 2, 1, 1]
      [1, 1, 1, 1] [some 1, some 1, some 1, some 1]
      [some 1, some 1, some 1, some 1] ⟨0, 2 / 5, 1 / 2, 4 / 5, 3⟩ 0
      (Or.inl rfl)

/-- C5: for well-ordered cyclepoints whose peak voltage dominates both
flanking trough voltages, the computed symmetry ratios lie in the unit
interval and the period and amplitude are nonnegative, with the
data-quality flag clear; and in general the flag is clear exactly when the
amplitudes are nonnegative and both ratios lie in the unit interval, so a
violation is surfaced on the offending cycle rather than clamped. -/
theorem claim_C5_cycle_feature_ranges :
    (∀ (s : Signal) (t r p d t2 : Nat),
      ((compute_cycle_features s t r p d t2).quality_flag = false ↔
        0 ≤ (compute_cycle_features s t r p d t2).volt_rise ∧
        0 ≤ (compute_cycle_features s t r p d t2).volt_decay ∧
        0 ≤ (compute_cycle_features s t r p d t2).time_rdsym ∧
        (compute_cycle_features s t r p d t2).time_rdsym ≤ 1 ∧
        0 ≤ (compute_cycle_features s t r p d t2).time_ptsym ∧
        (compute_cycle_features s t r p d t2).time_ptsym ≤ 1)) ∧
    (∀ (s : Signal) (t r p d t2 : Nat), t < r → r < p → p < d → d < t2 →
      val s t ≤ val s p → val s t2 ≤ val s p →
      0 ≤ (compute_cycle_features s t r p d t2).period ∧
      0 ≤ (compute_cycle_features s t r p d t2).volt_amp ∧
      0 ≤ (compute_cycle_features s t r p d t2).time_rdsym ∧
      (compute_cycle_features s t r p d t2).time_rdsym ≤ 1 ∧
      0 ≤ (compute_cycle_features s t r p d t2).time_ptsym ∧
      (compute_cycle_features s t r p d t2).time_ptsym ≤ 1 ∧
      (compute_cycle_features s t r p d t2).quality_flag = false) := by
  have hflag : ∀ (s : Signal) (t r p d t2 : Nat),
      ((compute_cycle_features s t r p d t2).quality_flag = false ↔
        0 ≤ (compute_cycle_features s t r p d t2).volt_rise ∧
        0 ≤ (compute_cycle_features s t r p d t2).volt_decay ∧
        0 ≤ (compute_cycle_features s t r p d t2).time_rdsym ∧
        (compute_cycle_features s t r p d t2).time_rdsym ≤ 1 ∧
        0 ≤ (compute_cycle_features s t r p d t2).time_ptsym ∧
        (compute_cycle_features s t r p d t2).time_ptsym ≤ 1) := by
    intro s t r p d t2
    simp only [compute_cycle_features, decide_eq_false_iff_not, not_or,
      not_lt]
  refine ⟨hflag, ?_⟩
  intro s t r p d t2 h1 h2 h3 h4 hvt hvt2
  have ht2t : (t : ℚ) < t2 := by exact_mod_cast (by omega : t < t2)
  have htp : (t : ℚ) < p := by exact_mod_cast (by omega : t < p)
  have hpt2 : (p : ℚ) < t2 := by exact_mod_cast (by omega : p < t2)
  have htr : (t : ℚ) < r := by exact_mod_cast h1
  have hrd : (r : ℚ) < d := by exact_mod_cast (by omega : r < d)
  have hdt2 : (d : ℚ) < t2 := by exact_mod_cast h4
  have hper : (0 : ℚ) < (t2 : ℚ) - t := by linarith
  have hrise : (0 : ℚ) ≤ val s p - val s t := by linarith
  have hdecay : (0 : ℚ) ≤ val s p - val s t2 := by linarith
  have hrd1 : (0 : ℚ) ≤ ((p : ℚ) - t) / ((t2 : ℚ) - t) :=
    div_nonneg (by linarith) (le_of_lt hper)
  have hrd2 : ((p : ℚ) - t) / ((t2 : ℚ) - t) ≤ 1 := by
    rw [div_le_one hper]
    linarith
  have hpt1 : (0 : ℚ) ≤ ((d : ℚ) - r) / ((t2 : ℚ) - t) :=
    div_nonneg (by linarith) (le_of_lt hper)
  have hpt2b : ((d : ℚ) - r) / ((t2 : ℚ) - t) ≤ 1 := by
    rw [div_le_one hper]
    linarith
  refine ⟨?_, ?_, ?_, ?_, ?_, ?_, ?_⟩
  · show (0 : ℚ) ≤ (t2 : ℚ) - t
    linarith
  · show (0 : ℚ) ≤ ((val s p - val s t) + (val s p - val s t2)) / 2
    positivity
  · exact hrd1
  · exact hrd2
  · exact hpt1
  · exact hpt2b
  · rw [hflag]
    exact ⟨hrise, hdecay, hrd1, hrd2, hpt1, hpt2b⟩

/-- C5 witness: a symmetric triangular cycle at samples 1 to 5. -/
theorem claim_C5_witness :
    (1 < 2 ∧ 2 < 3 ∧ 3 < 4 ∧ 4 < 5 ∧
      val [0, -2, 1, 3, 1, -2] 1 ≤ val [0, -2, 1, 3, 1, -2] 3 ∧
      val [0, -2, 1, 3, 1, -2] 5 ≤ val [0, -2, 1, 3, 1, -2] 3) ∧
    (0 ≤ (compute_cycle_features [0, -2, 1, 3, 1, -2] 1 2 3 4 5).period ∧
      0 ≤ (compute_cycle_features [0, -2, 1, 3, 1, -2] 1 2 3 4 5).volt_amp ∧
      0 ≤ (compute_cycle_features [0, -2, 1, 3, 1, -2] 1 2 3 4 5).time_rdsym ∧
      (compute_cycle_features [0, -2, 1, 3, 1, -2] 1 2 3 4 5).time_rdsym ≤ 1 ∧
      0 ≤ (compute_cycle_features [0, -2, 1, 3, 1, -2] 1 2 3 4 5).time_ptsym ∧
      (compute_cycle_features [0, -2, 1, 3, 1, -2] 1 2 3 4 5).time_ptsym ≤ 1 ∧
      (compute_cycle_features [0, -2, 1, 3, 1, -2] 1 2 3 4 5).quality_flag =
        false) :=
  ⟨⟨by decide, by decide, by decide, by decide, by decide, by decide⟩,
   claim_C5_cycle_feature_ranges.2 [0, -2, 1, 3, 1, -2] 1 2 3 4 5
     (by decide) (by decide) (by decide) (by decide) (by decide) (by decide)⟩

/-- C6: a flank whose midpoint threshold is never crossed gets an undefined
midpoint (`none`, the cycle flagged for exclusion); a flank with an odd
number of crossings 2m+1 gets the median crossing reported — an element of
the crossing set with exactly m crossings strictly below it and m strictly
above it (so neither the first, the last, nor a mean that need not be a
crossing at all). -/
theorem claim_C6_median_crossing :
    (∀ (s : Signal) (t p : Nat), riseMidCross s t p = [] →
      find_zerox_rise s t p = none) ∧
    (∀ (s : Signal) (p t2 : Nat), decayMidCross s p t2 = [] →
      find_zerox_decay s p t2 = none) ∧
    (∀ (s : Signal) (t p m : Nat), (riseMidCross s t p).length = 2 * m + 1 →
      ∃ c, find_zerox_rise s t p = some c ∧ c ∈ riseMidCross s t p ∧
        ((riseMidCross s t p).filter (fun x => decide (x < c))).length = m ∧
        ((riseMidCross s t p).filter (fun x => decide (c < x))).length = m) ∧
    (∀ (s : Signal) (p t2 m : Nat),
      (decayMidCross s p t2).length = 2 * m + 1 →
      ∃ c, find_zerox_decay s p t2 = some c ∧ c ∈ decayMidCross s p t2 ∧
        ((decayMidCross s p t2).filter (fun x => decide (x < c))).length =
          m ∧
        ((decayMidCross s p t2).filter (fun x => decide (c < x))).length =
          m) := by
  refine ⟨?_, ?_, ?_, ?_⟩
  · intro s t p h
    rw [find_zerox_rise, h]
    rfl
  · intro s p t2 h
    rw [find_zerox_decay, h]
    rfl
  · intro s t p m hlen
    exact medianIdx_median _ (riseMidCross_sorted s t p) m hlen
  · intro s p t2 m hlen
    exact medianIdx_median _ (decayMidCross_sorted s p t2) m hlen

/-- C6 witness: a rise flank crossing its midpoint threshold three times, so
the median crossing (sample 2) is neither the first (0) nor the last (4). -/
theorem claim_C6_witness :
    (riseMidCross [0, 4, 0, 4, 0, 4, 4] 0 6).length = 2 * 1 + 1 ∧
    ∃ c, find_zerox_rise [0, 4, 0, 4, 0, 4, 4] 0 6 = some c ∧
      c ∈ riseMidCross [0, 4, 0, 4, 0, 4, 4] 0 6 ∧
      ((riseMidCross [0, 4, 0, 4, 0, 4, 4] 0 6).filter
        (fun x => decide (x < c))).length = 1 ∧
      ((riseMidCross [0, 4, 0, 4, 0, 4, 4] 0 6).filter
        (fun x => decide (c < x))).length = 1 := by
  have h : riseMidCross [0, 4, 0, 4, 0, 4, 4] 0 6 = [0, 2, 4] := by
    norm_num [riseMidCross, flankThresh, val, List.range']
  exact ⟨by rw [h]; rfl, claim_C6_median_crossing.2.2.1 [0, 4, 0, 4, 0, 4, 4]
    0 6 1 (by rw [h]; rfl)⟩

/-- C7: `find_extrema` returns two strictly increasing index sequences whose
lengths differ by at most one; strictly between any two adjacent troughs
lies a peak and strictly between any two adjacent peaks lies a trough; and
with fewer than two zero-crossings of a flank type the corresponding
extrema sequence is empty rather than an error. -/
theorem claim_C7_find_extrema_contract (s : Signal) :
    List.Pairwise (· < ·) (find_extrema s).1 ∧
    List.Pairwise (· < ·) (find_extrema s).2 ∧
    ((find_extrema s).1.length ≤ (find_extrema s).2.length + 1 ∧
      (find_extrema s).2.length ≤ (find_extrema s).1.length + 1) ∧
    (∀ k, k + 1 < (find_extrema s).2.length →
      ∃ p ∈ (find_extrema s).1, (find_extrema s).2.getD k 0 < p ∧
        p < (find_extrema s).2.getD (k + 1) 0) ∧
    (∀ k, k + 1 < (find_extrema s).1.length →
      ∃ t ∈ (find_extrema s).2, (find_extrema s).1.getD k 0 < t ∧
        t < (find_extrema s).1.getD (k + 1) 0) ∧
    ((find_flank_zerox s FlankDir.rise).length < 2 →
      (find_extrema s).1 = []) ∧
    ((find_flank_zerox s FlankDir.decay).length < 2 →
      (find_extrema s).2 = []) := by
  have hpl : (find_extrema s).1.length =
      (find_flank_zerox s FlankDir.rise).length - 1 := by
    simp only [find_extrema]
    exact adjacentMap_length _ _
  have htl : (find_extrema s).2.length =
      (find_flank_zerox s FlankDir.decay).length - 1 := by
    simp only [find_extrema]
    exact adjacentMap_length _ _
  have hc := crossing_counts s
  refine ⟨peaks_sorted s, troughs_sorted s, by omega,
    peak_between_troughs s, trough_between_peaks s, ?_, ?_⟩
  · intro h
    exact List.length_eq_zero.mp (by omega)
  · intro h
    exact List.length_eq_zero.mp (by omega)

/-- C7 witness: a two-cycle signal with peaks at samples 3 and 7 and troughs
at samples 1 and 5; the peak 3 lies strictly between the adjacent troughs. -/
theorem claim_C7_witness :
    0 + 1 < (find_extrema [1, -4, 3, 9, 2, -4, -2, 9, 5, -4, 1]).2.length ∧
    ∃ p ∈ (find_extrema [1, -4, 3, 9, 2, -4, -2, 9, 5, -4, 1]).1,
      (find_extrema [1, -4, 3, 9, 2, -4, -2, 9, 5, -4, 1]).2.getD 0 0 < p ∧
      p < (find_extrema [1, -4, 3, 9, 2, -4, -2, 9, 5, -4, 1]).2.getD 1 0 :=
  ⟨by decide,
   (claim_C7_find_extrema_contract
     [1, -4, 3, 9, 2, -4, -2, 9, 5, -4, 1]).2.2.2.1 0 (by decide)⟩

/-- C1 counterexample: on this two-cycle signal the pipeline produces a
first cycle whose rise midpoint coincides with its trough (sample 1) and
whose decay midpoint coincides with its peak (sample 3), so the strict
ordering trough < rise < peak < decay < next trough fails on a produced
cycle. -/
theorem claim_C1_counterexample :
    (compute_features [1, -4, 3, 9, 2, -4, -2, 9, 5, -4, 1]).getD 0 none =
      some ⟨1, 1, 3, 3, 5⟩ ∧
    ¬(∀ c : Cycle,
        (compute_features [1, -4, 3, 9, 2, -4, -2, 9, 5, -4, 1]).getD 0
          none = some c →
        c.sample_trough < c.sample_rise ∧ c.sample_rise < c.sample_peak ∧
        c.sample_peak < c.sample_decay ∧
        c.sample_decay < c.sample_next_trough) := by
  have hex : find_extrema [1, -4, 3, 9, 2, -4, -2, 9, 5, -4, 1] =
      ([3, 7], [1, 5]) := by decide
  have hrm : riseMidCross [1, -4, 3, 9, 2, -4, -2, 9, 5, -4, 1] 1 3 =
      [1] := by
    norm_num [riseMidCross, flankThresh, val, List.range']
  have hdm : decayMidCross [1, -4, 3, 9, 2, -4, -2, 9, 5, -4, 1] 3 5 =
      [3] := by
    norm_num [decayMidCross, flankThresh, val, List.range']
  have hcf : (compute_features [1, -4, 3, 9, 2, -4, -2, 9, 5, -4, 1]).getD 0
      none = some ⟨1, 1, 3, 3, 5⟩ := by
    rw [compute_features, hex]
    show assembleCycle [1, -4, 3, 9, 2, -4, -2, 9, 5, -4, 1] [3, 7] 1 5 =
      some ⟨1, 1, 3, 3, 5⟩
    rw [assembleCycle,
      show List.find? (fun p => decide (1 < p) && decide (p < 5)) [3, 7] =
        some 3 from by decide]
    show (match find_zerox_rise [1, -4, 3, 9, 2, -4, -2, 9, 5, -4, 1] 1 3,
        find_zerox_decay [1, -4, 3, 9, 2, -4, -2, 9, 5, -4, 1] 3 5 with
      | some rr, some dd =>
        some (⟨1, rr, 3, dd, 5⟩ : Cycle)
      | _, _ => none) = some ⟨1, 1, 3, 3, 5⟩
    rw [find_zerox_rise, find_zerox_decay, hrm, hdm]
    rfl
  refine ⟨hcf, fun h => ?_⟩
  have h1 := (h ⟨1, 1, 3, 3, 5⟩ hcf).1
  exact absurd h1 (by decide)

/-- C1 (amended): every cycle produced by the pipeline satisfies
trough ≤ rise midpoint < peak ≤ decay midpoint < next trough (the strict
versions of the first and third comparisons can degenerate to equality when
the median crossing is adjacent to the extremum); the cycles are indexed by
adjacent trough pairs, hence contiguous, non-overlapping, ordered by time,
and cover the signal from the first to the last detected trough. -/
theorem claim_C1_cycle_ordering (s : Signal) :
    (compute_features s).length = (find_extrema s).2.length - 1 ∧
    List.Pairwise (· < ·) (find_extrema s).2 ∧
    ∀ k, k + 1 < (find_extrema s).2.length →
      ∃ c : Cycle, (compute_features s).getD k none = some c ∧
        c.sample_trough = (find_extrema s).2.getD k 0 ∧
        c.sample_next_trough = (find_extrema s).2.getD (k + 1) 0 ∧
        c.sample_trough ≤ c.sample_rise ∧ c.sample_rise < c.sample_peak ∧
        c.sample_peak ≤ c.sample_decay ∧
        c.sample_decay < c.sample_next_trough := by
  refine ⟨?_, troughs_sorted s, compute_features_spec s⟩
  rw [compute_features]
  exact adjacentMap_length _ _

/-- C1 witness: the amended ordering on the first produced cycle of a
concrete two-cycle signal. -/
theorem claim_C1_witness :
    0 + 1 < (find_extrema [1, -4, 3, 9, 2, -4, -2, 9, 5, -4, 1]).2.length ∧
    ∃ c : Cycle,
      (compute_features [1, -4, 3, 9, 2, -4, -2, 9, 5, -4, 1]).getD 0 none =
        some c ∧
      c.sample_trough =
        (find_extrema [1, -4, 3, 9, 2, -4, -2, 9, 5, -4, 1]).2.getD 0 0 ∧
      c.sample_next_trough =
        (find_extrema [1, -4, 3, 9, 2, -4, -2, 9, 5, -4, 1]).2.getD 1 0 ∧
      c.sample_trough ≤ c.sample_rise ∧ c.sample_rise < c.sample_peak ∧
      c.sample_peak ≤ c.sample_decay ∧
      c.sample_decay < c.sample_next_trough :=
  ⟨by decide,
   (claim_C1_cycle_ordering [1, -4, 3, 9, 2, -4, -2, 9, 5, -4, 1]).2.2 0
     (by decide)⟩

end Bycycle
